import Mathlib

/-!
NanoMQ: the SPSC ring buffer (`include/nanomq/queue.hpp`), the message
envelope (`include/nanomq/message.hpp`), the wire codec
(`src/network/protocol.cpp`) and the publisher and subscriber counters
(`src/api`).

A shallow embedding of `nanomq::SPSCQueue<T, Capacity>`, followed by one of
`nanomq::Message`, `nanomq::MessageBatch`, `encode_message` / `decode_message`,
`Publisher::Impl` and `Subscriber::Impl`.

* `size_t` is a 64-bit unsigned integer: cursors and counts are natural
  numbers, and every `+` / `-` of the source is taken modulo `2 ^ 64`
  (`wadd`, `wsub`); `&` is `Nat.land`.
* `Capacity` is the template parameter; it is passed explicitly to every
  operation.
* `storage_` is the backing array, modelled as a map from slot index to
  element.  The memory handed out by the allocator is uninitialised, so the
  constructor takes its initial contents as a parameter.
* The operations are studied single-threaded: each call runs to completion,
  atomic loads and stores are plain reads and writes of the two cursors.
-/

namespace nanomq

/-! ## Machine arithmetic on `size_t` -/

/-- Number of values of a `size_t`. -/
def SIZE_T_MOD : Nat := 2 ^ 64

/-- Wrapping `size_t` addition `a + b`.  The sum is written with `a` last so
that evaluation on a symbolic cursor stops at once. -/
def wadd (a b : Nat) : Nat := (b + a) % SIZE_T_MOD

/-- Wrapping `size_t` subtraction `a - b`: the two's complement of `b` plus `a`
(again with `a` last). -/
def wsub (a b : Nat) : Nat := ((SIZE_T_MOD - b % SIZE_T_MOD) + a) % SIZE_T_MOD

/-! ## The queue -/

/-- The data members `head_`, `tail_` and `storage_` of `SPSCQueue<T, Capacity>`. -/
structure SPSCQueue (α : Type) where
  head : Nat
  tail : Nat
  storage : Nat → α

namespace SPSCQueue

variable {α : Type}

/-- The condition of the `static_assert`: `(Capacity & (Capacity - 1)) == 0`. -/
def capacity_check (Capacity : Nat) : Bool :=
  (Capacity &&& wsub Capacity 1) == 0

/-- The constant `INDEX_MASK = Capacity - 1`. -/
def INDEX_MASK (Capacity : Nat) : Nat := wsub Capacity 1

/-- The constructor `SPSCQueue()`: both cursors are zero, `mem` is the freshly
allocated backing storage. -/
def new (mem : Nat → α) : SPSCQueue α :=
  { head := 0, tail := 0, storage := mem }

/-- The member `try_push(const T& item)`. -/
def try_push (Capacity : Nat) (q : SPSCQueue α) (item : α) : Bool × SPSCQueue α :=
  let head := q.head
  let next_head := wadd head 1 &&& INDEX_MASK Capacity
  if next_head = q.tail then
    (false, q)
  else
    (true, { q with storage := Function.update q.storage head item, head := next_head })

/-- The member `try_pop(T& item)`; the second component of the result is the
caller's `item` after the call. -/
def try_pop (Capacity : Nat) (q : SPSCQueue α) (item : α) : Bool × α × SPSCQueue α :=
  let tail := q.tail
  if tail = q.head then
    (false, item, q)
  else
    (true, q.storage tail, { q with tail := wadd tail 1 &&& INDEX_MASK Capacity })

/-- The copy loop of `try_push_batch`: iteration `i` stores `items[i]` at
`new_head` and advances `new_head`. -/
def push_loop (Capacity : Nat) (items : Nat → α) (count : Nat)
    (head : Nat) (storage : Nat → α) : Nat × (Nat → α) :=
  (List.range count).foldl
    (fun (s : Nat × (Nat → α)) i =>
      (wadd s.1 1 &&& INDEX_MASK Capacity, Function.update s.2 s.1 (items i)))
    (head, storage)

/-- The member `try_push_batch(const T* items, size_t max_count)`. -/
def try_push_batch (Capacity : Nat) (q : SPSCQueue α) (items : Nat → α) (max_count : Nat) :
    Nat × SPSCQueue α :=
  let head := q.head
  let tail := q.tail
  let available := wsub (wsub tail head) 1 &&& INDEX_MASK Capacity
  let count := if max_count < available then max_count else available
  if count = 0 then
    (0, q)
  else
    let r := push_loop Capacity items count head q.storage
    (count, { q with storage := r.2, head := r.1 })

/-- The copy loop of `try_pop_batch`: iteration `i` stores the slot at
`new_tail` into `items[i]` and advances `new_tail`. -/
def pop_loop (Capacity : Nat) (storage : Nat → α) (count : Nat)
    (tail : Nat) (items : Nat → α) : Nat × (Nat → α) :=
  (List.range count).foldl
    (fun (s : Nat × (Nat → α)) i =>
      (wadd s.1 1 &&& INDEX_MASK Capacity, Function.update s.2 i (storage s.1)))
    (tail, items)

/-- The member `try_pop_batch(T* items, size_t max_count)`; the second component
of the result is the caller's array `items` after the call. -/
def try_pop_batch (Capacity : Nat) (q : SPSCQueue α) (items : Nat → α) (max_count : Nat) :
    Nat × (Nat → α) × SPSCQueue α :=
  let tail := q.tail
  let head := q.head
  let available := wsub head tail &&& INDEX_MASK Capacity
  let count := if max_count < available then max_count else available
  if count = 0 then
    (0, items, q)
  else
    let r := pop_loop Capacity q.storage count tail items
    (count, r.2, { q with tail := r.1 })

/-- The member `is_empty()`. -/
def is_empty (q : SPSCQueue α) : Bool :=
  q.tail == q.head

/-- The member `is_full()`. -/
def is_full (Capacity : Nat) (q : SPSCQueue α) : Bool :=
  let head := q.head
  let next_head := wadd head 1 &&& INDEX_MASK Capacity
  next_head == q.tail

/-- The member `size()`. -/
def size (Capacity : Nat) (q : SPSCQueue α) : Nat :=
  let head := q.head
  let tail := q.tail
  wsub head tail &&& INDEX_MASK Capacity

/-- The member `capacity()`. -/
def capacity (Capacity : Nat) : Nat := Capacity

/-! ## Single-threaded call sequences -/

/-- One call of a member of the push/pop family, with its arguments (for the
pop family: the caller's output variable or array before the call). -/
inductive Call (α : Type) where
  | push (item : α)
  | pop (item : α)
  | push_batch (items : Nat → α) (max_count : Nat)
  | pop_batch (items : Nat → α) (max_count : Nat)

/-- The queue together with the history of a call sequence: the values
accepted by pushes and the values delivered by pops, oldest first. -/
structure Trace (α : Type) where
  queue : SPSCQueue α
  pushed : List α
  popped : List α

/-- Performs one call and records what it accepted or delivered. -/
def step (Capacity : Nat) (t : Trace α) : Call α → Trace α
  | .push item =>
    let r := try_push Capacity t.queue item
    { queue := r.2, pushed := if r.1 then t.pushed ++ [item] else t.pushed, popped := t.popped }
  | .pop item =>
    let r := try_pop Capacity t.queue item
    { queue := r.2.2, pushed := t.pushed, popped := if r.1 then t.popped ++ [r.2.1] else t.popped }
  | .push_batch items max_count =>
    let r := try_push_batch Capacity t.queue items max_count
    { queue := r.2, pushed := t.pushed ++ (List.range r.1).map items, popped := t.popped }
  | .pop_batch items max_count =>
    let r := try_pop_batch Capacity t.queue items max_count
    { queue := r.2.2, pushed := t.pushed, popped := t.popped ++ (List.range r.1).map r.2.1 }

/-- Performs a sequence of calls on a freshly constructed queue. -/
def run (Capacity : Nat) (mem : Nat → α) (calls : List (Call α)) : Trace α :=
  calls.foldl (step Capacity) { queue := new mem, pushed := [], popped := [] }

/-- A state is reachable when some sequence of calls on a freshly constructed
queue ends in it. -/
def Reachable (Capacity : Nat) (q : SPSCQueue α) : Prop :=
  ∃ (mem : Nat → α) (calls : List (Call α)), (run Capacity mem calls).queue = q

/-- The slots holding live elements, oldest first: `size()` slots from `tail`. -/
def live (Capacity : Nat) (q : SPSCQueue α) : List α :=
  (List.range (size Capacity q)).map (fun i => q.storage ((q.tail + i) % Capacity))

/-- The indices of the slots holding live elements, oldest first. -/
def live_slots (Capacity : Nat) (q : SPSCQueue α) : List Nat :=
  (List.range (size Capacity q)).map (fun i => (q.tail + i) % Capacity)

/-- Consecutive `try_push` calls, one per value of the list, as in the loop of
the test `QueueFull`: the returned flags and the final state. -/
def push_all (Capacity : Nat) (q : SPSCQueue α) : List α → List Bool × SPSCQueue α
  | [] => ([], q)
  | item :: rest =>
    let r := try_push Capacity q item
    let rs := push_all Capacity r.2 rest
    (r.1 :: rs.1, rs.2)

/-- A capacity the queue is meant for: a power of two that fits a `size_t`. -/
def ValidCapacity (C : Nat) : Prop := (∃ k, C = 2 ^ k) ∧ C < SIZE_T_MOD

/-- Both cursors index a slot of the backing array. -/
def InBounds (C : Nat) (q : SPSCQueue α) : Prop := q.head < C ∧ q.tail < C

/-- The history invariant: the cursors are in range and the values accepted so
far are the values delivered so far followed by the live elements. -/
def Inv (C : Nat) (t : Trace α) : Prop :=
  InBounds C t.queue ∧ t.pushed = t.popped ++ live C t.queue

end SPSCQueue

end nanomq

namespace nanomq

namespace SPSCQueue

variable {α : Type}

/-! ## Construction of the queue object -/

/-- The object the constructor leaves behind: the two cursors and the pointer
`storage_`, which is `none` for `nullptr` and otherwise the allocated array. -/
structure Object (α : Type) where
  head : Nat
  tail : Nat
  storage_ : Option (Nat → α)

/-- The constructor `SPSCQueue()`, with the outcome of
`posix_memalign(&ptr, CACHE_LINE_SIZE, sizeof(T) * Capacity)` as parameter:
`none` when the call returns non-zero, otherwise the array it hands out.  The
constructor has no other exit than returning the object. -/
def construct (posix_memalign : Option (Nat → α)) : Object α :=
  match posix_memalign with
  | none => { head := 0, tail := 0, storage_ := none }
  | some ptr => { head := 0, tail := 0, storage_ := some ptr }

/-- The member `is_empty()` on the constructed object: it reads the cursors only. -/
def Object.is_empty (o : Object α) : Bool :=
  o.tail == o.head

/-- The queue state of an object whose storage is a valid array. -/
def Object.state (o : Object α) : Option (SPSCQueue α) :=
  match o.storage_ with
  | none => none
  | some mem => some { head := o.head, tail := o.tail, storage := mem }

end SPSCQueue

/-! ## The message envelope (`include/nanomq/message.hpp`)

Bytes are natural numbers below 256, `uint32_t` values natural numbers below
`2 ^ 32`.  A pointer to bytes is `none` for `nullptr` and otherwise the bytes
of the region it points to, from the pointer onwards. -/

/-- Number of values of a `uint32_t`. -/
def UINT32_MOD : Nat := 2 ^ 32

/-- The enumerator `MSG_FLAG_NONE = 0`. -/
def MSG_FLAG_NONE : Nat := 0

/-- The enumerator `MSG_FLAG_COMPRESSED = 1 << 0`. -/
def MSG_FLAG_COMPRESSED : Nat := 1 <<< 0

/-- The enumerator `MSG_FLAG_ENCRYPTED = 1 << 1`. -/
def MSG_FLAG_ENCRYPTED : Nat := 1 <<< 1

/-- The enumerator `MSG_FLAG_PERSISTENT = 1 << 2`. -/
def MSG_FLAG_PERSISTENT : Nat := 1 <<< 2

/-- The enumerator `MSG_FLAG_PRIORITY = 1 << 3`. -/
def MSG_FLAG_PRIORITY : Nat := 1 <<< 3

/-- The four flags that carry a meaning. -/
def message_flags : List Nat :=
  [MSG_FLAG_COMPRESSED, MSG_FLAG_ENCRYPTED, MSG_FLAG_PERSISTENT, MSG_FLAG_PRIORITY]

/-- The struct `MessageHeader`. -/
structure MessageHeader where
  id : Nat
  timestamp : Nat
  topic_id : Nat
  size : Nat
  crc32 : Nat
  flags : Nat
  padding : List Nat
  deriving DecidableEq

/-- The constructor `MessageHeader()`. -/
def MessageHeader.ctor : MessageHeader :=
  { id := 0, timestamp := 0, topic_id := 0, size := 0, crc32 := 0, flags := 0,
    padding := List.replicate 28 0 }

/-- The struct `Message`: the header and the pointer `data`. -/
structure Message where
  header : MessageHeader
  data : Option (List Nat)
  deriving DecidableEq

/-- The polynomial of the IEEE 802.3 CRC-32, in reflected form. -/
def CRC32_POLY : Nat := 0xEDB88320

/-- One bit step of the reflected CRC-32 register. -/
def crc32_step (c : Nat) : Nat :=
  if c % 2 = 1 then (c / 2) ^^^ CRC32_POLY else c / 2

/-- The CRC-32 register after one more byte. -/
def crc32_byte (c b : Nat) : Nat :=
  crc32_step^[8] (c ^^^ b)

/-- The IEEE 802.3 CRC-32 of a byte sequence: register preset to all ones,
result complemented. -/
def crc32_bytes (bytes : List Nat) : Nat :=
  bytes.foldl crc32_byte 0xFFFFFFFF ^^^ 0xFFFFFFFF

/-- The `size` bytes at `data`, when they can be read: nothing is read for
`size = 0`, a null pointer or a region shorter than `size` cannot be read. -/
def read_bytes (data : Option (List Nat)) (size : Nat) : Option (List Nat) :=
  match data, size with
  | _, 0 => some []
  | none, _ + 1 => none
  | some region, n + 1 => if n + 1 ≤ region.length then some (region.take (n + 1)) else none

/-- Modelled from the spec: `Message::calculate_crc32(const void* data, size_t size)`
is declared in `message.hpp` and defined nowhere in the repository.  The spec
asks for a deterministic 32-bit code over the byte range, fixed to one CRC-32
variant, and names the IEEE 802.3 polynomial; this is that CRC over the `size`
bytes at `data`.  There is no result when the bytes cannot be read. -/
def calculate_crc32 (data : Option (List Nat)) (size : Nat) : Option Nat :=
  (read_bytes data size).map crc32_bytes

namespace Message

/-- The constructor `Message()`. -/
def ctor : Message :=
  { header := MessageHeader.ctor, data := none }

/-- The constructor `Message(id, timestamp, topic_id, payload, payload_size)`:
`data` is initialised to `nullptr` and stays so, `size` is the payload size cast
to `uint32_t`, `crc32` the checksum of the payload. -/
def ctor_payload (id timestamp topic_id : Nat) (payload : Option (List Nat))
    (payload_size : Nat) : Option Message :=
  match calculate_crc32 payload payload_size with
  | none => none
  | some crc =>
    some { header := { MessageHeader.ctor with
                       id := id, timestamp := timestamp, topic_id := topic_id,
                       size := payload_size % UINT32_MOD, flags := MSG_FLAG_NONE,
                       crc32 := crc },
           data := none }

/-- The member `verify_checksum()`. -/
def verify_checksum (m : Message) : Option Bool :=
  match calculate_crc32 m.data m.header.size with
  | none => none
  | some crc => some (m.header.crc32 == crc)

/-- The member `has_flag(flag)`. -/
def has_flag (m : Message) (flag : Nat) : Bool :=
  (m.header.flags &&& flag) != 0

/-- The member `set_flag(flag)`: `header.flags |= flag`. -/
def set_flag (m : Message) (flag : Nat) : Message :=
  { m with header := { m.header with flags := m.header.flags ||| flag } }

/-- The member `clear_flag(flag)`: `header.flags &= ~flag`, the complement
taken on 32 bits. -/
def clear_flag (m : Message) (flag : Nat) : Message :=
  { m with header := { m.header with flags := m.header.flags &&& (0xFFFFFFFF ^^^ flag) } }

/-- The assignment `msg.data = buffer` a caller makes to bind a payload. -/
def set_data (m : Message) (buffer : Option (List Nat)) : Message :=
  { m with data := buffer }

end Message

/-- Flips bit `j` of byte `i` of a buffer: `buffer[i] ^= (1 << j)`. -/
def flip_bit (buffer : List Nat) (i j : Nat) : List Nat :=
  buffer.set i (buffer.getD i 0 ^^^ (1 <<< j))

/-- The bytes of an ASCII string. -/
def ascii_bytes (s : String) : List Nat :=
  s.toList.map Char.toNat

/-- A payload of `k + 4` bytes: four bytes `0xFF` followed by `k` zero bytes. -/
def ones_then_zeros (k : Nat) : List Nat :=
  [255, 255, 255, 255] ++ List.replicate k 0

end nanomq

namespace nanomq

namespace SPSCQueue

variable {α : Type}

/-! ## Repeated single calls -/

/-- Calls `try_push(items[i])`, `try_push(items[i + 1])`, ... in order and stops
at the first call that returns false or after `n` calls: the index reached (from
`i = 0`, the number of accepted elements) and the final state. -/
def push_each (Capacity : Nat) (items : Nat → α) :
    Nat → Nat → SPSCQueue α → Nat × SPSCQueue α
  | 0, i, q => (i, q)
  | n + 1, i, q =>
    let r := try_push Capacity q (items i)
    if r.1 then push_each Capacity items n (i + 1) r.2 else (i, q)

/-- Calls `try_pop(out[i])`, `try_pop(out[i + 1])`, ... in order and stops at the
first call that returns false or after `n` calls: the index reached, the array
`out` and the final state. -/
def pop_each (Capacity : Nat) :
    Nat → Nat → (Nat → α) → SPSCQueue α → Nat × (Nat → α) × SPSCQueue α
  | 0, i, out, q => (i, out, q)
  | n + 1, i, out, q =>
    let r := try_pop Capacity q (out i)
    if r.1 then pop_each Capacity n (i + 1) (Function.update out i r.2.1) r.2.2
    else (i, out, q)

end SPSCQueue

/-! ## Layout of `MessageHeader` -/

/-- The constant `CACHE_LINE_SIZE = 64`. -/
def CACHE_LINE_SIZE : Nat := 64

/-- The next multiple of `align` at or after `offset`. -/
def align_up (offset align : Nat) : Nat :=
  (offset + align - 1) / align * align

/-- The offset after the last of a list of members, each given by its size and
its alignment, laid out in declaration order. -/
def layout_end (members : List (Nat × Nat)) : Nat :=
  members.foldl (fun offset m => align_up offset m.2 + m.1) 0

/-- The declared members of `MessageHeader`, size and alignment in bytes:
`uint64_t id`, `uint64_t timestamp`, `uint32_t topic_id`, `uint32_t size`,
`uint32_t crc32`, `uint32_t flags`, `uint8_t padding[28]`. -/
def MessageHeader.members : List (Nat × Nat) :=
  [(8, 8), (8, 8), (4, 4), (4, 4), (4, 4), (4, 4), (28, 1)]

/-- The bytes taken by the declared members together. -/
def MessageHeader.declared_bytes : Nat :=
  (MessageHeader.members.map Prod.fst).sum

/-- The alignment of the struct, from `alignas(CACHE_LINE_SIZE)`. -/
def MessageHeader.alignof : Nat := CACHE_LINE_SIZE

/-- The size of the struct: the end of its members rounded up to its alignment. -/
def MessageHeader.sizeof : Nat :=
  align_up (layout_end MessageHeader.members) MessageHeader.alignof

/-- The condition of the `static_assert` on `MessageHeader`. -/
def MessageHeader.size_check : Bool :=
  MessageHeader.sizeof == CACHE_LINE_SIZE

/-! ## The wire codec (`src/network/protocol.cpp`)

`memcpy` of the header copies its object representation: the members in
declaration order, integers little-endian (x86-64, AArch64), followed by the
bytes of the struct that belong to no member. -/

/-- The `width` bytes of an unsigned integer, least significant first. -/
def le_bytes : Nat → Nat → List Nat
  | 0, _ => []
  | width + 1, x => x % 256 :: le_bytes width (x / 256)

/-- The unsigned integer stored in a sequence of bytes, least significant first. -/
def le_value : List Nat → Nat
  | [] => 0
  | b :: rest => b + 256 * le_value rest

/-- A header whose members hold values of their declared types. -/
def MessageHeader.WellTyped (h : MessageHeader) : Prop :=
  h.id < 2 ^ 64 ∧ h.timestamp < 2 ^ 64 ∧ h.topic_id < 2 ^ 32 ∧ h.size < 2 ^ 32 ∧
  h.crc32 < 2 ^ 32 ∧ h.flags < 2 ^ 32 ∧ h.padding.length = 28

/-- The object representation of a header; `tail_padding` are the bytes after
the last member. -/
def MessageHeader.object_bytes (h : MessageHeader) (tail_padding : List Nat) : List Nat :=
  le_bytes 8 h.id ++ (le_bytes 8 h.timestamp ++ (le_bytes 4 h.topic_id ++
    (le_bytes 4 h.size ++ (le_bytes 4 h.crc32 ++ (le_bytes 4 h.flags ++
      (h.padding ++ tail_padding))))))

/-- The header whose object representation starts a sequence of bytes. -/
def MessageHeader.of_bytes (bytes : List Nat) : MessageHeader :=
  { id := le_value (bytes.take 8),
    timestamp := le_value ((bytes.drop 8).take 8),
    topic_id := le_value ((bytes.drop 16).take 4),
    size := le_value ((bytes.drop 20).take 4),
    crc32 := le_value ((bytes.drop 24).take 4),
    flags := le_value ((bytes.drop 28).take 4),
    padding := (bytes.drop 32).take 28 }

/-- The function `encode_message(msg, buffer, buffer_size)`: the returned length
and the buffer after the call.  `buffer` is the whole writable region; there is
no result when the payload cannot be read or the region is shorter than what is
written. -/
def encode_message (msg : Message) (tail_padding : List Nat) (buffer : List Nat)
    (buffer_size : Nat) : Option (Nat × List Nat) :=
  if buffer_size < MessageHeader.sizeof + msg.header.size then
    some (0, buffer)
  else
    match read_bytes msg.data msg.header.size with
    | none => none
    | some payload =>
      if buffer.length < MessageHeader.sizeof + msg.header.size then
        none
      else
        some (MessageHeader.sizeof + msg.header.size,
          msg.header.object_bytes tail_padding ++
            (payload ++ buffer.drop (MessageHeader.sizeof + msg.header.size)))

/-- The function `decode_message(buffer, buffer_size, msg)`: the returned flag
and `msg` after the call.  `buffer` is the whole readable region; there is no
result when the header is read beyond it. -/
def decode_message (buffer : List Nat) (buffer_size : Nat) (msg : Message) :
    Option (Bool × Message) :=
  if buffer_size < MessageHeader.sizeof then
    some (false, msg)
  else if buffer.length < MessageHeader.sizeof then
    none
  else
    let header := MessageHeader.of_bytes (buffer.take MessageHeader.sizeof)
    if buffer_size < MessageHeader.sizeof + header.size then
      some (false, { msg with header := header })
    else
      some (true, { header := header, data := some (buffer.drop MessageHeader.sizeof) })

/-! ## `MessageBatch` -/

/-- The struct `MessageBatch`: the array `messages` and `count`. -/
structure MessageBatch where
  messages : Nat → Message
  count : Nat

namespace MessageBatch

/-- The constant `MAX_BATCH_SIZE = 256`. -/
def MAX_BATCH_SIZE : Nat := 256

/-- The constructor `MessageBatch()`: default-constructed messages, `count(0)`. -/
def ctor : MessageBatch :=
  { messages := fun _ => Message.ctor, count := 0 }

/-- The member `is_full()`. -/
def is_full (b : MessageBatch) : Bool :=
  decide (b.count ≥ MAX_BATCH_SIZE)

/-- The member `is_empty()`. -/
def is_empty (b : MessageBatch) : Bool :=
  b.count == 0

/-- The member `add(msg)`. -/
def add (b : MessageBatch) (msg : Message) : MessageBatch :=
  if !b.is_full then
    { messages := Function.update b.messages b.count msg, count := b.count + 1 }
  else
    b

/-- The member `clear()`. -/
def clear (b : MessageBatch) : MessageBatch :=
  { b with count := 0 }

end MessageBatch

/-! ## Publisher and subscriber (`src/api`) -/

/-- Number of values of a `uint64_t`. -/
def UINT64_MOD : Nat := 2 ^ 64

/-- The data members of `Publisher::Impl`. -/
structure Publisher where
  broker_address_ : String
  connected_ : Bool
  messages_sent_ : Nat
  bytes_sent_ : Nat
  messages_failed_ : Nat

namespace Publisher

/-- The constructor `Publisher(broker_address)`. -/
def ctor (broker_address : String) : Publisher :=
  { broker_address_ := broker_address, connected_ := false, messages_sent_ := 0,
    bytes_sent_ := 0, messages_failed_ := 0 }

/-- The member `publish(topic, data, size)`: `messages_sent_++` on a `uint64_t`,
then `return messages_sent_`; the arguments are not used. -/
def publish (p : Publisher) (_topic : String) (_data : Option (List Nat)) (_size : Nat) :
    Nat × Publisher :=
  let sent := (1 + p.messages_sent_) % UINT64_MOD
  (sent, { p with messages_sent_ := sent })

/-- The member `publish_batch(topic, data_array, size_array, count)`. -/
def publish_batch (p : Publisher) (topic : String) (data_array : Nat → Option (List Nat))
    (size_array : Nat → Nat) (count : Nat) : Nat × Publisher :=
  (List.range count).foldl
    (fun (s : Nat × Publisher) i =>
      let r := publish s.2 topic (data_array i) (size_array i)
      (if r.1 > 0 then s.1 + 1 else s.1, r.2))
    (0, p)

end Publisher

/-- The data members of `Subscriber::Impl`. -/
structure Subscriber where
  broker_address_ : String
  consumer_group_ : String
  connected_ : Bool
  messages_received_ : Nat
  position_ : Nat

namespace Subscriber

/-- The constructor `Subscriber(broker_address, consumer_group)`. -/
def ctor (broker_address consumer_group : String) : Subscriber :=
  { broker_address_ := broker_address, consumer_group_ := consumer_group,
    connected_ := false, messages_received_ := 0, position_ := 0 }

/-- The member `commit(message_id)`. -/
def commit (s : Subscriber) (message_id : Nat) : Subscriber :=
  { s with position_ := message_id }

/-- The member `commit_batch(message_ids)`. -/
def commit_batch (s : Subscriber) (message_ids : List Nat) : Subscriber :=
  message_ids.foldl commit s

/-- The member `get_position()`. -/
def get_position (s : Subscriber) : Nat :=
  s.position_

end Subscriber

end nanomq

namespace nanomq

namespace MessageBatch

/-! ## Call sequences on a batch -/

/-- One call of `add(msg)` or `clear()`. -/
inductive Call where
  | add (msg : Message)
  | clear

/-- Performs one call. -/
def step (b : MessageBatch) : Call → MessageBatch
  | .add msg => b.add msg
  | .clear => b.clear

/-- Performs a sequence of calls on a freshly constructed batch. -/
def run (calls : List Call) : MessageBatch :=
  calls.foldl step ctor

end MessageBatch

end nanomq

namespace nanomq

/-! ## Arithmetic of cursors -/

theorem mod_of_lt_two_mul {x C : Nat} (h1 : C ≤ x) (h2 : x < 2 * C) : x % C = x - C := by
  have h3 : x = (x - C) + C := by omega
  rw [h3, Nat.add_mod_right, Nat.mod_eq_of_lt (by omega)]
  omega

theorem succ_mod_cases {x C : Nat} (hx : x < C) :
    (x + 1) % C = if x + 1 = C then 0 else x + 1 := by
  split
  · next h => rw [h, Nat.mod_self]
  · next h => exact Nat.mod_eq_of_lt (by omega)

theorem add_mod_cases {x i C : Nat} (hx : x < C) (hi : i < C) :
    (x + i) % C = if x + i < C then x + i else x + i - C := by
  split
  · next h => exact Nat.mod_eq_of_lt h
  · next h => exact mod_of_lt_two_mul (by omega) (by omega)

theorem sub_mod_cases {h t C : Nat} (hh : h < C) (ht : t < C) :
    (h + (C - t)) % C = if t ≤ h then h - t else h + C - t := by
  split
  · next hle =>
    rw [mod_of_lt_two_mul (by omega) (by omega)]
    omega
  · next hlt =>
    rw [Nat.mod_eq_of_lt (by omega)]
    omega

theorem two_pow_lt_size {k : Nat} (h : 2 ^ k < SIZE_T_MOD) : k < 64 := by
  unfold SIZE_T_MOD at h
  exact (Nat.pow_lt_pow_iff_right (by decide)).mp h

theorem INDEX_MASK_two_pow {k : Nat} (hk : 2 ^ k < SIZE_T_MOD) :
    SPSCQueue.INDEX_MASK (2 ^ k) = 2 ^ k - 1 := by
  have hpos : 0 < 2 ^ k := Nat.two_pow_pos k
  unfold SPSCQueue.INDEX_MASK wsub
  simp only [SIZE_T_MOD, Nat.reducePow] at hk ⊢
  omega

theorem land_mask_two_pow {k : Nat} (hk : 2 ^ k < SIZE_T_MOD) (x : Nat) :
    (x % SIZE_T_MOD) &&& SPSCQueue.INDEX_MASK (2 ^ k) = x % 2 ^ k := by
  rw [INDEX_MASK_two_pow hk, Nat.and_pow_two_sub_one_eq_mod]
  have hk64 := two_pow_lt_size hk
  unfold SIZE_T_MOD
  exact Nat.mod_mod_of_dvd x (Nat.pow_dvd_pow 2 (by omega))

/-- With a power-of-two capacity, masking a wrapped value is reduction modulo
the capacity. -/
theorem land_mask {C : Nat} (hC : ∃ k, C = 2 ^ k) (hlt : C < SIZE_T_MOD) (x : Nat) :
    (x % SIZE_T_MOD) &&& SPSCQueue.INDEX_MASK C = x % C := by
  obtain ⟨k, rfl⟩ := hC
  exact land_mask_two_pow hlt x

theorem capacity_pos {C : Nat} (hC : ∃ k, C = 2 ^ k) : 0 < C := by
  obtain ⟨k, rfl⟩ := hC
  exact Nat.two_pow_pos k

theorem capacity_dvd_size {C : Nat} (hC : ∃ k, C = 2 ^ k) (hlt : C < SIZE_T_MOD) :
    C ∣ SIZE_T_MOD := by
  obtain ⟨k, rfl⟩ := hC
  have hk64 := two_pow_lt_size hlt
  unfold SIZE_T_MOD
  exact Nat.pow_dvd_pow 2 (by omega)

/-- The masked successor of a cursor is its successor modulo the capacity. -/
theorem next_eq {C : Nat} (hC : ∃ k, C = 2 ^ k) (hlt : C < SIZE_T_MOD) (x : Nat) :
    wadd x 1 &&& SPSCQueue.INDEX_MASK C = (x + 1) % C := by
  unfold wadd
  rw [Nat.add_comm 1 x]
  exact land_mask hC hlt (x + 1)

/-- The masked wrapped difference of two in-range cursors. -/
theorem diff_eq {C : Nat} (hC : ∃ k, C = 2 ^ k) (hlt : C < SIZE_T_MOD) {h t : Nat}
    (ht : t < C) :
    wsub h t &&& SPSCQueue.INDEX_MASK C = (h + (C - t)) % C := by
  unfold wsub
  rw [land_mask hC hlt, Nat.mod_eq_of_lt (by omega : t < SIZE_T_MOD),
    Nat.add_comm (SIZE_T_MOD - t) h]
  obtain ⟨d, hd⟩ := capacity_dvd_size hC hlt
  have hpos := capacity_pos hC
  have hd1 : 1 ≤ d := by
    rcases Nat.eq_zero_or_pos d with h0 | h0
    · subst h0; omega
    · exact h0
  have : h + (SIZE_T_MOD - t) = (h + (C - t)) + C * (d - 1) := by
    rw [hd]
    have : C * d = C * (d - 1) + C := by
      conv_lhs => rw [show d = (d - 1) + 1 by omega]
      rw [Nat.mul_add, Nat.mul_one]
    omega
  rw [this, Nat.add_mul_mod_self_left]

end nanomq

namespace nanomq

namespace SPSCQueue

variable {α : Type}

theorem ValidCapacity.pos {C : Nat} (hC : ValidCapacity C) : 0 < C := capacity_pos hC.1

theorem size_eq {C : Nat} (hC : ValidCapacity C) {q : SPSCQueue α} (hq : InBounds C q) :
    size C q = (q.head + (C - q.tail)) % C := by
  unfold size
  exact diff_eq hC.1 hC.2 hq.2

theorem size_cases {C : Nat} (hC : ValidCapacity C) {q : SPSCQueue α} (hq : InBounds C q) :
    size C q = if q.tail ≤ q.head then q.head - q.tail else q.head + C - q.tail := by
  rw [size_eq hC hq, sub_mod_cases hq.1 hq.2]

theorem size_lt {C : Nat} (hC : ValidCapacity C) {q : SPSCQueue α} (hq : InBounds C q) :
    size C q < C := by
  rw [size_eq hC hq]
  exact Nat.mod_lt _ hC.pos

theorem is_full_iff {C : Nat} (hC : ValidCapacity C) (q : SPSCQueue α) :
    is_full C q = true ↔ (q.head + 1) % C = q.tail := by
  unfold is_full
  simp only [next_eq hC.1 hC.2, beq_iff_eq]

theorem full_iff_size {C : Nat} (hC : ValidCapacity C) {q : SPSCQueue α} (hq : InBounds C q) :
    (q.head + 1) % C = q.tail ↔ size C q = C - 1 := by
  have hpos := hC.pos
  obtain ⟨hh, ht⟩ := hq
  rw [size_cases hC ⟨hh, ht⟩, succ_mod_cases hh]
  split_ifs <;> omega

theorem empty_iff_size {C : Nat} (hC : ValidCapacity C) {q : SPSCQueue α} (hq : InBounds C q) :
    q.head = q.tail ↔ size C q = 0 := by
  obtain ⟨hh, ht⟩ := hq
  rw [size_cases hC ⟨hh, ht⟩]
  split_ifs <;> omega

/-- The slot `i` places after `tail` is the slot at `head` exactly for `i = size()`. -/
theorem slot_eq_head_iff {C : Nat} {h t i : Nat} (hh : h < C) (ht : t < C) (hi : i < C) :
    (t + i) % C = h ↔ i = (h + (C - t)) % C := by
  rw [add_mod_cases ht hi, sub_mod_cases hh ht]
  split_ifs <;> omega

theorem slot_shift {C : Nat} (t i : Nat) : ((t + 1) % C + i) % C = (t + (i + 1)) % C := by
  rw [Nat.mod_add_mod]
  congr 1
  omega

/-- Effect of the successful branch of `try_push` on the live elements. -/
theorem push_step {C : Nat} (hC : ValidCapacity C) {q : SPSCQueue α} (hq : InBounds C q)
    (hfull : (q.head + 1) % C ≠ q.tail) (item : α) :
    InBounds C (⟨(q.head + 1) % C, q.tail, Function.update q.storage q.head item⟩ : SPSCQueue α) ∧
    size C (⟨(q.head + 1) % C, q.tail, Function.update q.storage q.head item⟩ : SPSCQueue α) = size C q + 1 ∧
    live C (⟨(q.head + 1) % C, q.tail, Function.update q.storage q.head item⟩ : SPSCQueue α) = live C q ++ [item] := by
  have hpos := hC.pos
  have hb : InBounds C (⟨(q.head + 1) % C, q.tail, Function.update q.storage q.head item⟩ : SPSCQueue α) := ⟨Nat.mod_lt _ hpos, hq.2⟩
  have hsz : size C (⟨(q.head + 1) % C, q.tail, Function.update q.storage q.head item⟩ : SPSCQueue α) = size C q + 1 := by
    rw [size_cases hC hb, size_cases hC hq]
    obtain ⟨hh, ht⟩ := hq
    simp only
    rw [succ_mod_cases hh] at hfull ⊢
    split_ifs at hfull ⊢ <;> omega
  refine ⟨hb, hsz, ?_⟩
  unfold live
  rw [hsz, List.range_succ, List.map_append]
  have hn := size_lt hC hq
  congr 1
  · apply List.map_congr_left
    intro i hi
    have hi2 : i < size C q := List.mem_range.mp hi
    have hne : (q.tail + i) % C ≠ q.head := by
      intro heq
      rw [slot_eq_head_iff hq.1 hq.2 (by omega), ← size_eq hC hq] at heq
      omega
    simp only [Function.update_noteq hne]
  · have heq : (q.tail + size C q) % C = q.head :=
      (slot_eq_head_iff hq.1 hq.2 hn).mpr (size_eq hC hq)
    simp only [List.map_cons, List.map_nil]
    rw [heq, Function.update_same]

/-- Effect of the successful branch of `try_pop` on the live elements. -/
theorem pop_step {C : Nat} (hC : ValidCapacity C) {q : SPSCQueue α} (hq : InBounds C q)
    (hne : q.tail ≠ q.head) :
    InBounds C (⟨q.head, (q.tail + 1) % C, q.storage⟩ : SPSCQueue α) ∧
    size C q = size C (⟨q.head, (q.tail + 1) % C, q.storage⟩ : SPSCQueue α) + 1 ∧
    live C q = q.storage q.tail :: live C (⟨q.head, (q.tail + 1) % C, q.storage⟩ : SPSCQueue α) := by
  have hpos := hC.pos
  have hb : InBounds C (⟨q.head, (q.tail + 1) % C, q.storage⟩ : SPSCQueue α) := ⟨hq.1, Nat.mod_lt _ hpos⟩
  have hsz : size C q = size C (⟨q.head, (q.tail + 1) % C, q.storage⟩ : SPSCQueue α) + 1 := by
    rw [size_cases hC hb, size_cases hC hq]
    obtain ⟨hh, ht⟩ := hq
    simp only
    rw [succ_mod_cases ht]
    split_ifs <;> omega
  refine ⟨hb, hsz, ?_⟩
  unfold live
  rw [hsz, List.range_succ_eq_map, List.map_cons, List.map_map]
  have h0 : (q.tail + 0) % C = q.tail := by
    rw [Nat.add_zero]; exact Nat.mod_eq_of_lt hq.2
  rw [h0]
  congr 1
  apply List.map_congr_left
  intro i _
  simp only [Function.comp, slot_shift]

end SPSCQueue

end nanomq

namespace nanomq

namespace SPSCQueue

variable {α : Type}

theorem add_sub_mod_dvd {C M : Nat} (hdvd : C ∣ M) (hM : 0 < M) (a : Nat)
    {b : Nat} (hb : b ≤ C) : (a + (M - b)) % C = (a + (C - b)) % C := by
  obtain ⟨d, hd⟩ := hdvd
  have hd1 : 1 ≤ d := by
    rcases Nat.eq_zero_or_pos d with h0 | h0
    · subst h0; omega
    · exact h0
  have hmul : C * d = C * (d - 1) + C := by
    conv_lhs => rw [show d = (d - 1) + 1 by omega]
    rw [Nat.mul_add, Nat.mul_one]
  have : a + (M - b) = (a + (C - b)) + C * (d - 1) := by omega
  rw [this, Nat.add_mul_mod_self_left]

theorem size_t_mod_pos : 0 < SIZE_T_MOD := by decide

theorem one_mod_size_t : 1 % SIZE_T_MOD = 1 := by decide

/-- The free-slot count computed by `try_push_batch`. -/
theorem avail_eq {C : Nat} (hC : ValidCapacity C) {q : SPSCQueue α} (hq : InBounds C q) :
    wsub (wsub q.tail q.head) 1 &&& INDEX_MASK C = C - 1 - size C q := by
  have hpos := hC.pos
  have hdvd := capacity_dvd_size hC.1 hC.2
  obtain ⟨hh, ht⟩ := hq
  have e1 : wsub (wsub q.tail q.head) 1 &&& INDEX_MASK C
      = (q.tail + (C - q.head) + (C - 1)) % C := by
    unfold wsub
    rw [land_mask hC.1 hC.2, one_mod_size_t,
      Nat.mod_eq_of_lt (by have := hC.2; omega : q.head < SIZE_T_MOD),
      Nat.add_comm (SIZE_T_MOD - 1), Nat.add_comm (SIZE_T_MOD - q.head)]
    have e0 : (SIZE_T_MOD - 1) % C = (C - 1) % C := by
      have := add_sub_mod_dvd hdvd size_t_mod_pos 0 hpos
      simpa using this
    rw [Nat.add_mod, Nat.mod_mod_of_dvd _ hdvd,
      add_sub_mod_dvd hdvd size_t_mod_pos _ (Nat.le_of_lt hh), e0, ← Nat.add_mod]
  rw [e1, size_cases hC ⟨hh, ht⟩]
  by_cases hle : q.tail ≤ q.head
  · rw [if_pos hle, mod_of_lt_two_mul (by omega) (by omega)]
    omega
  · rw [if_neg hle]
    have e2 : q.tail + (C - q.head) + (C - 1) = (q.tail - q.head - 1 + C) + C := by omega
    rw [e2, Nat.add_mod_right, Nat.add_mod_right, Nat.mod_eq_of_lt (by omega)]
    omega

theorem try_push_eq {C : Nat} (hC : ValidCapacity C) (q : SPSCQueue α) (item : α) :
    try_push C q item =
      if (q.head + 1) % C = q.tail then (false, q)
      else (true, ⟨(q.head + 1) % C, q.tail, Function.update q.storage q.head item⟩) := by
  unfold try_push
  simp only [next_eq hC.1 hC.2]

theorem try_pop_eq {C : Nat} (hC : ValidCapacity C) (q : SPSCQueue α) (item : α) :
    try_pop C q item =
      if q.tail = q.head then (false, item, q)
      else (true, q.storage q.tail, ⟨q.head, (q.tail + 1) % C, q.storage⟩) := by
  unfold try_pop
  simp only [next_eq hC.1 hC.2]

theorem push_loop_succ (C : Nat) (items : Nat → α) (n h : Nat) (st : Nat → α) :
    push_loop C items (n + 1) h st =
      (wadd (push_loop C items n h st).1 1 &&& INDEX_MASK C,
       Function.update (push_loop C items n h st).2 (push_loop C items n h st).1 (items n)) := by
  unfold push_loop
  rw [List.range_succ, List.foldl_append]
  rfl

theorem pop_loop_succ (C : Nat) (st : Nat → α) (n t : Nat) (out : Nat → α) :
    pop_loop C st (n + 1) t out =
      (wadd (pop_loop C st n t out).1 1 &&& INDEX_MASK C,
       Function.update (pop_loop C st n t out).2 n (st (pop_loop C st n t out).1)) := by
  unfold pop_loop
  rw [List.range_succ, List.foldl_append]
  rfl

/-- Invariant of the copy loop of `try_push_batch`, as long as it stays within
the free slots. -/
theorem push_loop_spec {C : Nat} (hC : ValidCapacity C) {q : SPSCQueue α} (hq : InBounds C q)
    (items : Nat → α) (count : Nat) (hcount : size C q + count ≤ C - 1) :
    InBounds C ⟨(push_loop C items count q.head q.storage).1, q.tail,
      (push_loop C items count q.head q.storage).2⟩ ∧
    size C ⟨(push_loop C items count q.head q.storage).1, q.tail,
      (push_loop C items count q.head q.storage).2⟩ = size C q + count ∧
    live C ⟨(push_loop C items count q.head q.storage).1, q.tail,
      (push_loop C items count q.head q.storage).2⟩ = live C q ++ (List.range count).map items := by
  induction count with
  | zero =>
    refine ⟨hq, rfl, ?_⟩
    simp [push_loop]
  | succ n ih =>
    obtain ⟨hb, hsz, hlive⟩ := ih (by omega)
    have hnf : ((push_loop C items n q.head q.storage).1 + 1) % C ≠ q.tail := by
      intro hfull
      have := (full_iff_size hC hb).mp hfull
      omega
    obtain ⟨hb2, hsz2, hlive2⟩ := push_step hC hb hnf (items n)
    rw [push_loop_succ, next_eq hC.1 hC.2]
    dsimp only at hb2 hsz2 hlive2 ⊢
    refine ⟨hb2, ?_, ?_⟩
    · rw [hsz2, hsz]; omega
    · rw [hlive2, hlive, List.range_succ, List.map_append, List.append_assoc]
      rfl

/-- Invariant of the copy loop of `try_pop_batch`, as long as it stays within
the live elements: the output array receives the oldest elements in order and
is untouched elsewhere. -/
theorem pop_loop_spec {C : Nat} (hC : ValidCapacity C) {q : SPSCQueue α} (hq : InBounds C q)
    (out : Nat → α) (count : Nat) (hcount : count ≤ size C q) :
    InBounds C ⟨q.head, (pop_loop C q.storage count q.tail out).1, q.storage⟩ ∧
    size C q = size C ⟨q.head, (pop_loop C q.storage count q.tail out).1, q.storage⟩ + count ∧
    live C q = (List.range count).map (pop_loop C q.storage count q.tail out).2 ++
      live C ⟨q.head, (pop_loop C q.storage count q.tail out).1, q.storage⟩ ∧
    (∀ i, count ≤ i → (pop_loop C q.storage count q.tail out).2 i = out i) := by
  induction count with
  | zero =>
    refine ⟨hq, rfl, ?_, fun i _ => rfl⟩
    simp [pop_loop]
  | succ n ih =>
    obtain ⟨hb, hsz, hlive, hout⟩ := ih (by omega)
    have hne : (pop_loop C q.storage n q.tail out).1 ≠ q.head := by
      intro hemp
      have := (empty_iff_size hC hb).mp hemp.symm
      omega
    obtain ⟨hb2, hsz2, hlive2⟩ := pop_step hC hb hne
    rw [pop_loop_succ, next_eq hC.1 hC.2]
    dsimp only at hb2 hsz2 hlive2 ⊢
    refine ⟨hb2, ?_, ?_, ?_⟩
    · rw [hsz, hsz2]; omega
    · rw [hlive, hlive2, List.range_succ, List.map_append, List.append_assoc]
      congr 1
      · apply List.map_congr_left
        intro i hi
        have : i ≠ n := by have := List.mem_range.mp hi; omega
        simp only [Function.update_noteq this]
      · simp only [List.map_cons, List.map_nil, Function.update_same, List.singleton_append]
    · intro i hi
      have : i ≠ n := by omega
      simp only [Function.update_noteq this]
      exact hout i (by omega)

end SPSCQueue

end nanomq

namespace nanomq

namespace SPSCQueue

variable {α : Type}

theorem try_push_batch_eq {C : Nat} (hC : ValidCapacity C) {q : SPSCQueue α}
    (hq : InBounds C q) (items : Nat → α) (max_count : Nat) :
    try_push_batch C q items max_count =
      if min max_count (C - 1 - size C q) = 0 then (0, q)
      else (min max_count (C - 1 - size C q),
        ⟨(push_loop C items (min max_count (C - 1 - size C q)) q.head q.storage).1, q.tail,
         (push_loop C items (min max_count (C - 1 - size C q)) q.head q.storage).2⟩) := by
  have hmin : (if max_count < C - 1 - size C q then max_count else C - 1 - size C q)
      = min max_count (C - 1 - size C q) := by
    split <;> omega
  unfold try_push_batch
  simp only [avail_eq hC hq, hmin]

theorem try_pop_batch_eq {C : Nat} (q : SPSCQueue α) (out : Nat → α) (max_count : Nat) :
    try_pop_batch C q out max_count =
      if min max_count (size C q) = 0 then (0, out, q)
      else (min max_count (size C q),
        (pop_loop C q.storage (min max_count (size C q)) q.tail out).2,
        ⟨q.head, (pop_loop C q.storage (min max_count (size C q)) q.tail out).1, q.storage⟩) := by
  have hmin : (if max_count < size C q then max_count else size C q)
      = min max_count (size C q) := by
    split <;> omega
  have hsize : wsub q.head q.tail &&& INDEX_MASK C = size C q := rfl
  unfold try_pop_batch
  simp only [hsize, hmin]

/-- Full specification of `try_push_batch` on a state with in-range cursors. -/
theorem try_push_batch_spec {C : Nat} (hC : ValidCapacity C) {q : SPSCQueue α}
    (hq : InBounds C q) (items : Nat → α) (max_count : Nat) :
    (try_push_batch C q items max_count).1 = min max_count (C - 1 - size C q) ∧
    InBounds C (try_push_batch C q items max_count).2 ∧
    size C (try_push_batch C q items max_count).2
      = size C q + (try_push_batch C q items max_count).1 ∧
    live C (try_push_batch C q items max_count).2
      = live C q ++ (List.range (try_push_batch C q items max_count).1).map items := by
  have hn := size_lt hC hq
  rw [try_push_batch_eq hC hq]
  split
  · next h0 =>
    refine ⟨h0.symm, hq, rfl, ?_⟩
    simp
  · next h0 =>
    obtain ⟨hb, hsz, hlive⟩ :=
      push_loop_spec hC hq items (min max_count (C - 1 - size C q)) (by omega)
    exact ⟨rfl, hb, hsz, hlive⟩

/-- Full specification of `try_pop_batch` on a state with in-range cursors. -/
theorem try_pop_batch_spec {C : Nat} (hC : ValidCapacity C) {q : SPSCQueue α}
    (hq : InBounds C q) (out : Nat → α) (max_count : Nat) :
    (try_pop_batch C q out max_count).1 = min max_count (size C q) ∧
    InBounds C (try_pop_batch C q out max_count).2.2 ∧
    size C q = size C (try_pop_batch C q out max_count).2.2
      + (try_pop_batch C q out max_count).1 ∧
    live C q = (List.range (try_pop_batch C q out max_count).1).map
        (try_pop_batch C q out max_count).2.1
      ++ live C (try_pop_batch C q out max_count).2.2 ∧
    (∀ i, (try_pop_batch C q out max_count).1 ≤ i →
      (try_pop_batch C q out max_count).2.1 i = out i) := by
  rw [try_pop_batch_eq]
  split
  · next h0 =>
    refine ⟨h0.symm, hq, rfl, ?_, fun i _ => rfl⟩
    simp
  · next h0 =>
    obtain ⟨hb, hsz, hlive, hout⟩ :=
      pop_loop_spec hC hq out (min max_count (size C q)) (by omega)
    exact ⟨rfl, hb, hsz, hlive, hout⟩

theorem inv_new {C : Nat} (hC : ValidCapacity C) (mem : Nat → α) :
    Inv C { queue := new mem, pushed := [], popped := [] } := by
  have hpos := hC.pos
  have hb : InBounds C (new mem) := ⟨hpos, hpos⟩
  have h0 : size C (new mem) = 0 := (empty_iff_size hC hb).mp rfl
  refine ⟨hb, ?_⟩
  simp [live, h0]

theorem inv_step {C : Nat} (hC : ValidCapacity C) {t : Trace α} (ht : Inv C t)
    (c : Call α) : Inv C (step C t c) := by
  obtain ⟨hb, hhist⟩ := ht
  cases c with
  | push item =>
    simp only [step]
    rw [try_push_eq hC]
    split
    · exact ⟨hb, hhist⟩
    · next hnf =>
      obtain ⟨hb2, _, hlive2⟩ := push_step hC hb hnf item
      refine ⟨hb2, ?_⟩
      simp only [if_true]
      rw [hlive2, hhist, List.append_assoc]
  | pop item =>
    simp only [step]
    rw [try_pop_eq hC]
    split
    · exact ⟨hb, hhist⟩
    · next hne =>
      obtain ⟨hb2, _, hlive2⟩ := pop_step hC hb hne
      refine ⟨hb2, ?_⟩
      simp only [if_true]
      rw [hhist, hlive2, List.append_assoc]
      rfl
  | push_batch items max_count =>
    obtain ⟨_, hb2, _, hlive2⟩ := try_push_batch_spec hC hb items max_count
    simp only [step]
    refine ⟨hb2, ?_⟩
    simp only
    rw [hlive2, hhist, List.append_assoc]
  | pop_batch items max_count =>
    obtain ⟨_, hb2, _, hlive2, _⟩ := try_pop_batch_spec hC hb items max_count
    simp only [step]
    refine ⟨hb2, ?_⟩
    simp only
    rw [hhist, hlive2, List.append_assoc]

theorem inv_foldl {C : Nat} (hC : ValidCapacity C) (calls : List (Call α)) :
    ∀ t : Trace α, Inv C t → Inv C (calls.foldl (step C) t) := by
  induction calls with
  | nil => intro t ht; exact ht
  | cons c cs ih => intro t ht; exact ih _ (inv_step hC ht c)

theorem inv_run {C : Nat} (hC : ValidCapacity C) (mem : Nat → α) (calls : List (Call α)) :
    Inv C (run C mem calls) :=
  inv_foldl hC calls _ (inv_new hC mem)

theorem Reachable.inBounds {C : Nat} (hC : ValidCapacity C) {q : SPSCQueue α}
    (hq : Reachable C q) : InBounds C q := by
  obtain ⟨mem, calls, rfl⟩ := hq
  exact (inv_run hC mem calls).1

theorem length_live (C : Nat) (q : SPSCQueue α) : (live C q).length = size C q := by
  simp [live]

end SPSCQueue

end nanomq

namespace nanomq

namespace SPSCQueue

variable {α : Type}

/-! ## FIFO delivery -/

/-- C1: for a power-of-two capacity and any single-threaded sequence of calls
on a freshly constructed queue (try_push and try_pop, and the batch calls as
well), the values delivered by the pops are, in order, a leading segment of the
values accepted by the pushes, and they are all of them whenever the queue has
been drained to empty. -/
theorem fifo_single_threaded (C : Nat) (hC : ValidCapacity C) (mem : Nat → α)
    (calls : List (Call α)) :
    (run C mem calls).popped <+: (run C mem calls).pushed ∧
    (is_empty (run C mem calls).queue = true →
      (run C mem calls).popped = (run C mem calls).pushed) := by
  obtain ⟨hb, hhist⟩ := inv_run hC mem calls
  refine ⟨⟨_, hhist.symm⟩, ?_⟩
  intro hemp
  have heq : (run C mem calls).queue.head = (run C mem calls).queue.tail := by
    unfold is_empty at hemp
    exact (beq_iff_eq.mp hemp).symm
  have h0 : size C (run C mem calls).queue = 0 := (empty_iff_size hC hb).mp heq
  rw [hhist]
  simp [live, h0]

theorem fifo_single_threaded_witness :
    ValidCapacity 16 ∧
    (run 16 (fun _ => 0) ((List.range 10).map Call.push ++ (List.range 10).map Call.pop)).popped
      <+: (run 16 (fun _ => 0)
        ((List.range 10).map Call.push ++ (List.range 10).map Call.pop)).pushed :=
  ⟨⟨⟨4, rfl⟩, by decide⟩,
   (fifo_single_threaded 16 ⟨⟨4, rfl⟩, by decide⟩ (fun _ => 0)
      ((List.range 10).map Call.push ++ (List.range 10).map Call.pop)).1⟩

/-! ## Filling the queue -/

/-- Pushing onto a queue whose tail is at slot 0 and that has room for all the
values: every push succeeds and the head advances by one per value. -/
theorem push_all_room {C : Nat} (hC : ValidCapacity C) (vs : List α) :
    ∀ q : SPSCQueue α, q.tail = 0 → q.head + vs.length ≤ C - 1 →
      (push_all C q vs).1 = List.replicate vs.length true ∧
      (push_all C q vs).2.head = q.head + vs.length ∧
      (push_all C q vs).2.tail = 0 := by
  induction vs with
  | nil => intro q ht _; exact ⟨rfl, rfl, ht⟩
  | cons v rest ih =>
    intro q ht hlen
    simp only [List.length_cons] at hlen
    have hnext : (q.head + 1) % C = q.head + 1 := Nat.mod_eq_of_lt (by omega)
    have hpush : try_push C q v =
        (true, ⟨q.head + 1, q.tail, Function.update q.storage q.head v⟩) := by
      rw [try_push_eq hC, hnext, if_neg (by omega)]
    obtain ⟨h1, h2, h3⟩ := ih ⟨q.head + 1, q.tail, Function.update q.storage q.head v⟩ ht
      (by simp only; omega)
    simp only [push_all, hpush, List.length_cons, List.replicate_succ]
    refine ⟨by rw [h1], ?_, h3⟩
    rw [h2]
    simp only
    omega

/-- C2: for a power-of-two capacity C, the first C-1 consecutive try_push calls
on a freshly constructed queue all return true and any further try_push returns
false; is_full() is false after each of the first C-2 pushes (and before the
first one when C-1 > 0) and true after the (C-1)-th push. -/
theorem queue_full_after_capacity_minus_one (C : Nat) (hC : ValidCapacity C)
    (mem : Nat → α) (vs : List α) (hlen : vs.length = C - 1) :
    (push_all C (new mem) vs).1 = List.replicate (C - 1) true ∧
    (∀ j, j < C - 1 → is_full C (push_all C (new mem) (vs.take j)).2 = false) ∧
    is_full C (push_all C (new mem) vs).2 = true ∧
    (∀ v, (try_push C (push_all C (new mem) vs).2 v).1 = false) := by
  have hpos := hC.pos
  obtain ⟨h1, h2, h3⟩ := push_all_room hC vs (new mem) rfl (by simp only [new]; omega)
  have hfull : ((push_all C (new mem) vs).2.head + 1) % C = (push_all C (new mem) vs).2.tail := by
    rw [h2, h3]
    simp only [new, hlen]
    rw [show 0 + (C - 1) + 1 = C by omega, Nat.mod_self]
  refine ⟨by rw [h1, hlen], ?_, (is_full_iff hC _).mpr hfull, ?_⟩
  · intro j hj
    have hjl : (vs.take j).length = j := by
      rw [List.length_take]; omega
    obtain ⟨_, g2, g3⟩ := push_all_room hC (vs.take j) (new mem) rfl
      (by simp only [new]; omega)
    cases hf : is_full C (push_all C (new mem) (List.take j vs)).2 with
    | false => rfl
    | true =>
      have := (is_full_iff hC _).mp hf
      rw [g2, g3, hjl] at this
      simp only [new] at this
      rw [Nat.mod_eq_of_lt (by omega)] at this
      omega
  · intro v
    rw [try_push_eq hC, if_pos hfull]

theorem queue_full_after_capacity_minus_one_witness :
    (push_all 16 (new (fun _ => 0)) (List.range 15)).1 = List.replicate (16 - 1) true ∧
    (∀ j, j < 16 - 1 →
      is_full 16 (push_all 16 (new (fun _ => 0)) ((List.range 15).take j)).2 = false) ∧
    is_full 16 (push_all 16 (new (fun _ => 0)) (List.range 15)).2 = true ∧
    (∀ v, (try_push 16 (push_all 16 (new (fun _ => 0)) (List.range 15)).2 v).1 = false) :=
  queue_full_after_capacity_minus_one 16 ⟨⟨4, rfl⟩, by decide⟩ (fun _ => 0) (List.range 15)
    (by decide)

/-- C3: try_push on a full queue (is_full() true) returns false and returns the
queue state as it was: head, tail, size() and every slot are unchanged. -/
theorem try_push_full_unchanged (C : Nat) (q : SPSCQueue α) (item : α)
    (hfull : is_full C q = true) :
    (try_push C q item).1 = false ∧
    (try_push C q item).2 = q ∧
    (try_push C q item).2.head = q.head ∧
    (try_push C q item).2.tail = q.tail ∧
    size C (try_push C q item).2 = size C q ∧
    (∀ s, (try_push C q item).2.storage s = q.storage s) := by
  have hnext : (wadd q.head 1 &&& INDEX_MASK C) = q.tail := by
    unfold is_full at hfull
    exact beq_iff_eq.mp hfull
  have hr : try_push C q item = (false, q) := by
    unfold try_push
    simp only [hnext, if_true]
  rw [hr]
  exact ⟨rfl, rfl, rfl, rfl, rfl, fun _ => rfl⟩

theorem try_push_full_unchanged_witness :
    is_full 16 (push_all 16 (new (fun _ => 0)) (List.range 15)).2 = true ∧
    (try_push 16 (push_all 16 (new (fun _ => 0)) (List.range 15)).2 999).1 = false ∧
    size 16 (try_push 16 (push_all 16 (new (fun _ => 0)) (List.range 15)).2 999).2 = 15 :=
  ⟨by decide,
   (try_push_full_unchanged 16 (push_all 16 (new (fun _ => 0)) (List.range 15)).2 999
      (by decide)).1,
   by
    rw [(try_push_full_unchanged 16 (push_all 16 (new (fun _ => 0)) (List.range 15)).2 999
      (by decide)).2.2.2.2.1]
    decide⟩

/-- C4: on every state reached from a fresh queue, try_pop returns false exactly
when head == tail, and then the queue (head, tail, every slot) and the caller's
item are unchanged; when it returns true the item is the oldest accepted value
not yet delivered and size() has decreased by exactly one. -/
theorem try_pop_spec (C : Nat) (hC : ValidCapacity C) (mem : Nat → α)
    (calls : List (Call α)) (item : α) :
    ((try_pop C (run C mem calls).queue item).1 = false ↔
      (run C mem calls).queue.head = (run C mem calls).queue.tail) ∧
    ((try_pop C (run C mem calls).queue item).1 = false →
      (try_pop C (run C mem calls).queue item).2.1 = item ∧
      (try_pop C (run C mem calls).queue item).2.2 = (run C mem calls).queue) ∧
    ((try_pop C (run C mem calls).queue item).1 = true →
      (run C mem calls).pushed[(run C mem calls).popped.length]?
        = some (try_pop C (run C mem calls).queue item).2.1 ∧
      size C (try_pop C (run C mem calls).queue item).2.2 + 1
        = size C (run C mem calls).queue) := by
  obtain ⟨hb, hhist⟩ := inv_run hC mem calls
  rw [try_pop_eq hC]
  split
  · next heq =>
    exact ⟨⟨fun _ => heq.symm, fun _ => rfl⟩, fun _ => ⟨rfl, rfl⟩, fun h => by simp at h⟩
  · next hne =>
    obtain ⟨_, hsz, hlive⟩ := pop_step hC hb hne
    refine ⟨⟨fun h => by simp at h, fun h => absurd h.symm hne⟩, fun h => by simp at h, ?_⟩
    intro _
    refine ⟨?_, hsz.symm⟩
    rw [hhist, hlive, List.getElem?_append_right (Nat.le_refl _), Nat.sub_self,
      List.getElem?_cons_zero]

theorem try_pop_spec_witness :
    ValidCapacity 16 ∧
    ((try_pop 16 (run 16 (fun _ => 0) [Call.push 7, Call.push 8]).queue 0).1 = true →
      (run 16 (fun _ => 0) [Call.push 7, Call.push 8]).pushed[
          (run 16 (fun _ => 0) [Call.push 7, Call.push 8]).popped.length]?
        = some (try_pop 16 (run 16 (fun _ => 0) [Call.push 7, Call.push 8]).queue 0).2.1 ∧
      size 16 (try_pop 16 (run 16 (fun _ => 0) [Call.push 7, Call.push 8]).queue 0).2.2 + 1
        = size 16 (run 16 (fun _ => 0) [Call.push 7, Call.push 8]).queue) :=
  ⟨⟨⟨4, rfl⟩, by decide⟩,
   (try_pop_spec 16 ⟨⟨4, rfl⟩, by decide⟩ (fun _ => 0) [Call.push 7, Call.push 8] 0).2.2⟩

/-! ## Batch operations -/

theorem slot_inj {C h i j : Nat} (hh : h < C) (hi : i < C) (hj : j < C)
    (heq : (h + i) % C = (h + j) % C) : i = j := by
  rw [add_mod_cases hh hi, add_mod_cases hh hj] at heq
  split_ifs at heq <;> omega

/-- Slot-level effect of the copy loop of `try_push_batch`. -/
theorem push_loop_slots {C : Nat} (hC : ValidCapacity C) (items : Nat → α) {h : Nat}
    (hh : h < C) (st : Nat → α) (count : Nat) (hcount : count ≤ C) :
    (push_loop C items count h st).1 = (h + count) % C ∧
    (∀ j, j < count → (push_loop C items count h st).2 ((h + j) % C) = items j) ∧
    (∀ s, (∀ j, j < count → s ≠ (h + j) % C) → (push_loop C items count h st).2 s = st s) := by
  induction count with
  | zero =>
    refine ⟨?_, fun j hj => absurd hj (Nat.not_lt_zero j), fun s _ => rfl⟩
    simp only [push_loop, List.range_zero, List.foldl_nil, Nat.add_zero]
    exact (Nat.mod_eq_of_lt hh).symm
  | succ n ih =>
    obtain ⟨h1, h2, h3⟩ := ih (by omega)
    rw [push_loop_succ, next_eq hC.1 hC.2, h1]
    refine ⟨?_, ?_, ?_⟩
    · simp only
      rw [Nat.mod_add_mod, Nat.add_assoc]
    · intro j hj
      simp only
      by_cases hjn : j = n
      · subst hjn
        rw [Function.update_same]
      · have hne : (h + j) % C ≠ (h + n) % C := fun heq =>
          hjn (slot_inj hh (by omega) (by omega) heq)
        rw [Function.update_noteq hne]
        exact h2 j (by omega)
    · intro s hs
      simp only
      rw [Function.update_noteq (hs n (by omega))]
      exact h3 s (fun j hj => hs j (by omega))

/-- The free slots, counted from `head`, hold no live element. -/
theorem free_not_live {C : Nat} (hC : ValidCapacity C) {q : SPSCQueue α} (hq : InBounds C q)
    {j : Nat} (hj : j < C - 1 - size C q) : (q.head + j) % C ∉ live_slots C q := by
  intro hmem
  unfold live_slots at hmem
  obtain ⟨i, hi, heq⟩ := List.mem_map.mp hmem
  have hi2 : i < size C q := List.mem_range.mp hi
  have hsz := size_cases hC hq
  obtain ⟨hh, ht⟩ := hq
  rw [add_mod_cases ht (by omega), add_mod_cases hh (by omega)] at heq
  split_ifs at hsz heq <;> omega

/-- Slot-level effect of `try_push_batch`: the slots from `head` onwards receive
the leading elements of `items`, every other slot keeps its content. -/
theorem try_push_batch_slots {C : Nat} (hC : ValidCapacity C) {q : SPSCQueue α}
    (hb : InBounds C q) (items : Nat → α) (max_count : Nat) :
    (∀ i, i < (try_push_batch C q items max_count).1 →
      (try_push_batch C q items max_count).2.storage ((q.head + i) % C) = items i) ∧
    (∀ s, (∀ i, i < (try_push_batch C q items max_count).1 → s ≠ (q.head + i) % C) →
      (try_push_batch C q items max_count).2.storage s = q.storage s) := by
  rw [try_push_batch_eq hC hb]
  split
  · exact ⟨fun i hi => by simp only at hi; omega, fun s _ => rfl⟩
  · exact ⟨fun i hi => (push_loop_slots hC items hb.1 q.storage _ (by omega)).2.1 i hi,
      fun s hs => (push_loop_slots hC items hb.1 q.storage _ (by omega)).2.2 s hs⟩

/-- C5: on every reachable state holding n elements, try_push_batch returns
min(max_count, Capacity - 1 - n), stores that many leading elements of items in
the slots from head onwards (so that they follow the live elements in order),
leaves every other slot alone, and afterwards size() is n plus the returned
count. -/
theorem try_push_batch_count (C : Nat) (hC : ValidCapacity C) (q : SPSCQueue α)
    (hq : Reachable C q) (items : Nat → α) (max_count : Nat) :
    (try_push_batch C q items max_count).1 = min max_count (C - 1 - size C q) ∧
    (∀ i, i < (try_push_batch C q items max_count).1 →
      (try_push_batch C q items max_count).2.storage ((q.head + i) % C) = items i) ∧
    (∀ s, (∀ i, i < (try_push_batch C q items max_count).1 → s ≠ (q.head + i) % C) →
      (try_push_batch C q items max_count).2.storage s = q.storage s) ∧
    live C (try_push_batch C q items max_count).2
      = live C q ++ (List.range (try_push_batch C q items max_count).1).map items ∧
    size C (try_push_batch C q items max_count).2
      = size C q + (try_push_batch C q items max_count).1 := by
  have hb := hq.inBounds hC
  obtain ⟨h1, _, h3, h4⟩ := try_push_batch_spec hC hb items max_count
  obtain ⟨h5, h6⟩ := try_push_batch_slots hC hb items max_count
  exact ⟨h1, h5, h6, h4, h3⟩

theorem try_push_batch_count_witness :
    Reachable 256 (new (fun _ => 0)) ∧
    (try_push_batch 256 (new (fun _ => 0)) id 100).1
      = min 100 (256 - 1 - size 256 (new (fun _ => 0))) ∧
    size 256 (try_push_batch 256 (new (fun _ => 0)) id 100).2
      = size 256 (new (fun _ => 0)) + (try_push_batch 256 (new (fun _ => 0)) id 100).1 :=
  ⟨⟨fun _ => 0, [], rfl⟩,
   (try_push_batch_count 256 ⟨⟨8, rfl⟩, by decide⟩ (new (fun _ => 0))
      ⟨fun _ => 0, [], rfl⟩ id 100).1,
   (try_push_batch_count 256 ⟨⟨8, rfl⟩, by decide⟩ (new (fun _ => 0))
      ⟨fun _ => 0, [], rfl⟩ id 100).2.2.2.2⟩

/-- C6: on every state reached from a fresh queue and holding n elements,
try_pop_batch returns k = min(max_count, n), writes to out[0..k) the k oldest
accepted values not yet delivered, in FIFO order, leaves out untouched from
index k on, and afterwards size() is n - k. -/
theorem try_pop_batch_fifo (C : Nat) (hC : ValidCapacity C) (mem : Nat → α)
    (calls : List (Call α)) (out : Nat → α) (max_count : Nat) :
    (try_pop_batch C (run C mem calls).queue out max_count).1
      = min max_count (size C (run C mem calls).queue) ∧
    (∀ i, i < (try_pop_batch C (run C mem calls).queue out max_count).1 →
      (run C mem calls).pushed[(run C mem calls).popped.length + i]?
        = some ((try_pop_batch C (run C mem calls).queue out max_count).2.1 i)) ∧
    (∀ i, (try_pop_batch C (run C mem calls).queue out max_count).1 ≤ i →
      (try_pop_batch C (run C mem calls).queue out max_count).2.1 i = out i) ∧
    size C (try_pop_batch C (run C mem calls).queue out max_count).2.2
      = size C (run C mem calls).queue
        - (try_pop_batch C (run C mem calls).queue out max_count).1 := by
  obtain ⟨hb, hhist⟩ := inv_run hC mem calls
  obtain ⟨h1, _, h3, h4, h5⟩ := try_pop_batch_spec hC hb out max_count
  refine ⟨h1, ?_, h5, by omega⟩
  intro i hi
  rw [hhist, h4, List.getElem?_append_right (by omega), Nat.add_sub_cancel_left,
    List.getElem?_append_left (by simpa using hi)]
  simp [hi]

theorem try_pop_batch_fifo_witness :
    ValidCapacity 256 ∧
    (try_pop_batch 256 (run 256 (fun _ => 0) [Call.push_batch id 100]).queue
      (fun _ => 0) 50).1
      = min 50 (size 256 (run 256 (fun _ => 0) [Call.push_batch id 100]).queue) :=
  ⟨⟨⟨8, rfl⟩, by decide⟩,
   (try_pop_batch_fifo 256 ⟨⟨8, rfl⟩, by decide⟩ (fun _ => 0) [Call.push_batch id 100]
      (fun _ => 0) 50).1⟩

/-! ## Invariants -/

/-- C7: in every state reached from a freshly constructed queue by any sequence
of try_push, try_pop, try_push_batch and try_pop_batch calls, head and tail are
below Capacity, the number of live elements (accepted minus delivered) is size(),
and it is at most Capacity - 1. -/
theorem reachable_invariant (C : Nat) (hC : ValidCapacity C) (mem : Nat → α)
    (calls : List (Call α)) :
    (run C mem calls).queue.head < C ∧
    (run C mem calls).queue.tail < C ∧
    (run C mem calls).pushed.length
      = (run C mem calls).popped.length + size C (run C mem calls).queue ∧
    (run C mem calls).pushed.length - (run C mem calls).popped.length
      = size C (run C mem calls).queue ∧
    size C (run C mem calls).queue ≤ C - 1 := by
  obtain ⟨hb, hhist⟩ := inv_run hC mem calls
  have hlen : (run C mem calls).pushed.length
      = (run C mem calls).popped.length + size C (run C mem calls).queue := by
    conv_lhs => rw [hhist]
    rw [List.length_append, length_live]
  have hlt := size_lt hC hb
  exact ⟨hb.1, hb.2, hlen, by omega, by omega⟩

theorem reachable_invariant_witness :
    ValidCapacity 16 ∧
    size 16 (run 16 (fun _ => 0) ((List.range 20).map Call.push)).queue ≤ 16 - 1 :=
  ⟨⟨⟨4, rfl⟩, by decide⟩,
   (reachable_invariant 16 ⟨⟨4, rfl⟩, by decide⟩ (fun _ => 0)
      ((List.range 20).map Call.push)).2.2.2.2⟩

/-! ## The capacity check -/

/-- A positive number sharing no bit with its predecessor is a power of two. -/
theorem pow_two_of_land_pred : ∀ n : Nat, 0 < n → n &&& (n - 1) = 0 → ∃ k, n = 2 ^ k := by
  intro n
  induction n using Nat.strong_induction_on with
  | _ n ih =>
    intro hpos hland
    have hdiv : n / 2 &&& (n - 1) / 2 = 0 := by
      rw [← Nat.and_div_two, hland]
    rcases Nat.mod_two_eq_zero_or_one n with hev | hodd
    · have hm : 0 < n / 2 := by omega
      have hpred : (n - 1) / 2 = n / 2 - 1 := by omega
      rw [hpred] at hdiv
      obtain ⟨k, hk⟩ := ih (n / 2) (by omega) hm hdiv
      refine ⟨k + 1, ?_⟩
      rw [Nat.pow_succ, ← hk]
      omega
    · have hpred : (n - 1) / 2 = n / 2 := by omega
      rw [hpred, Nat.and_self] at hdiv
      refine ⟨0, ?_⟩
      rw [Nat.pow_zero]
      omega

/-- What the `static_assert` accepts: zero and the powers of two. -/
theorem capacity_check_iff (C : Nat) (hlt : C < SIZE_T_MOD) :
    capacity_check C = true ↔ C = 0 ∨ ∃ k, C = 2 ^ k := by
  unfold capacity_check
  rw [beq_iff_eq]
  constructor
  · intro h
    rcases Nat.eq_zero_or_pos C with h0 | hpos
    · exact Or.inl h0
    · right
      have hsub : wsub C 1 = C - 1 := by
        unfold wsub
        simp only [SIZE_T_MOD, Nat.reducePow] at hlt ⊢
        omega
      rw [hsub] at h
      exact pow_two_of_land_pred C hpos h
  · rintro (h0 | ⟨k, rfl⟩)
    · subst h0
      exact Nat.zero_and _
    · have := INDEX_MASK_two_pow hlt
      unfold INDEX_MASK at this
      rw [this, Nat.and_pow_two_sub_one_eq_mod, Nat.mod_self]

/-- C9: the capacity check `(Capacity & (Capacity - 1)) == 0` accepts
Capacity = 0, which is not a power of two. -/
theorem capacity_check_accepts_zero :
    capacity_check 0 = true ∧ ¬ ∃ k, 0 = 2 ^ k := by
  refine ⟨by decide, ?_⟩
  rintro ⟨k, hk⟩
  have := Nat.two_pow_pos k
  omega

/-! ## Empty and full -/

/-- C8, as the claim states it, fails for Capacity = 1: the check accepts it,
and the freshly constructed queue is empty and full at once. -/
theorem empty_and_full_at_capacity_one :
    capacity_check 1 = true ∧
    Reachable 1 (new (fun _ => (0 : Nat))) ∧
    is_empty (new (fun _ => (0 : Nat))) = true ∧
    is_full 1 (new (fun _ => (0 : Nat))) = true :=
  ⟨by decide, ⟨fun _ => 0, [], rfl⟩, by decide, by decide⟩

/-- C8 (amended): for every non-zero Capacity accepted by the capacity check and
every reachable state, is_empty() holds exactly when head == tail and is_full()
exactly when (head + 1) mod Capacity == tail; for Capacity >= 2 the two are
never both true, while for Capacity = 1 both are true in every reachable
state. -/
theorem empty_full_unambiguous (C : Nat) (hlt : C < SIZE_T_MOD)
    (hcheck : capacity_check C = true) (hpos : 0 < C) (q : SPSCQueue α)
    (hq : Reachable C q) :
    (is_empty q = true ↔ q.head = q.tail) ∧
    (is_full C q = true ↔ (q.head + 1) % C = q.tail) ∧
    (2 ≤ C → ¬ (is_empty q = true ∧ is_full C q = true)) ∧
    (C = 1 → is_empty q = true ∧ is_full C q = true) := by
  have hC : ValidCapacity C := by
    rcases (capacity_check_iff C hlt).mp hcheck with h0 | hk
    · omega
    · exact ⟨hk, hlt⟩
  obtain ⟨hh, ht⟩ := hq.inBounds hC
  have hemp : is_empty q = true ↔ q.head = q.tail := by
    unfold is_empty
    rw [beq_iff_eq]
    exact eq_comm
  refine ⟨hemp, is_full_iff hC q, ?_, ?_⟩
  · rintro h2 ⟨he, hf⟩
    have h1 := hemp.mp he
    have h3 := (is_full_iff hC q).mp hf
    rw [succ_mod_cases hh] at h3
    split_ifs at h3 <;> omega
  · intro h1
    subst h1
    refine ⟨hemp.mpr (by omega), (is_full_iff hC q).mpr ?_⟩
    rw [Nat.mod_one]
    omega

theorem empty_full_unambiguous_witness :
    capacity_check 16 = true ∧
    Reachable 16 (run 16 (fun _ => 0) [Call.push 5]).queue ∧
    ¬ (is_empty (run 16 (fun _ => 0) [Call.push 5]).queue = true ∧
      is_full 16 (run 16 (fun _ => 0) [Call.push 5]).queue = true) :=
  ⟨by decide, ⟨fun _ => 0, [Call.push 5], rfl⟩,
   (empty_full_unambiguous 16 (by decide) (by decide) (by decide)
      (run 16 (fun _ => 0) [Call.push 5]).queue ⟨fun _ => 0, [Call.push 5], rfl⟩).2.2.1
      (by decide)⟩

/-! ## Cursor ownership -/

/-- C10: on every reachable state, try_push and try_push_batch leave tail as it
is and can only change the slots at head, head+1, ... (mod Capacity) up to the
returned count, none of which holds a live element, so every live slot keeps
its content; a try_push that returns false changes nothing; try_pop and
try_pop_batch leave head and the whole backing storage as they are. -/
theorem cursor_ownership (C : Nat) (hC : ValidCapacity C) (q : SPSCQueue α)
    (hq : Reachable C q) (item : α) (items : Nat → α) (max_count : Nat) :
    ((try_push C q item).2.tail = q.tail ∧
      (∀ s, s ≠ q.head → (try_push C q item).2.storage s = q.storage s) ∧
      ((try_push C q item).1 = true → q.head ∉ live_slots C q) ∧
      ((try_push C q item).1 = false → (try_push C q item).2 = q) ∧
      (∀ s, s ∈ live_slots C q → (try_push C q item).2.storage s = q.storage s)) ∧
    ((try_push_batch C q items max_count).2.tail = q.tail ∧
      (∀ s, (∀ j, j < (try_push_batch C q items max_count).1 → s ≠ (q.head + j) % C) →
        (try_push_batch C q items max_count).2.storage s = q.storage s) ∧
      (∀ j, j < (try_push_batch C q items max_count).1 →
        (q.head + j) % C ∉ live_slots C q) ∧
      (∀ s, s ∈ live_slots C q →
        (try_push_batch C q items max_count).2.storage s = q.storage s)) ∧
    ((try_pop C q item).2.2.head = q.head ∧
      (try_pop C q item).2.2.storage = q.storage) ∧
    ((try_pop_batch C q items max_count).2.2.head = q.head ∧
      (try_pop_batch C q items max_count).2.2.storage = q.storage) := by
  have hb := hq.inBounds hC
  have hn := size_lt hC hb
  have hpos := hC.pos
  -- try_push
  have hfree0 : (q.head + 1) % C ≠ q.tail → q.head ∉ live_slots C q := by
    intro hnf
    have hsz : size C q ≠ C - 1 := fun h => hnf ((full_iff_size hC hb).mpr h)
    have := free_not_live hC hb (show 0 < C - 1 - size C q by omega)
    rwa [Nat.add_zero, Nat.mod_eq_of_lt hb.1] at this
  have hpush : (try_push C q item).2.tail = q.tail ∧
      (∀ s, s ≠ q.head → (try_push C q item).2.storage s = q.storage s) ∧
      ((try_push C q item).1 = true → q.head ∉ live_slots C q) ∧
      ((try_push C q item).1 = false → (try_push C q item).2 = q) ∧
      (∀ s, s ∈ live_slots C q → (try_push C q item).2.storage s = q.storage s) := by
    rw [try_push_eq hC]
    split
    · exact ⟨rfl, fun _ _ => rfl, fun h => by simp at h, fun _ => rfl, fun _ _ => rfl⟩
    · next hnf =>
      refine ⟨rfl, fun s hs => Function.update_noteq hs _ _, fun _ => hfree0 hnf,
        fun h => by simp at h, ?_⟩
      intro s hs
      have hne : s ≠ q.head := fun h => hfree0 hnf (h ▸ hs)
      exact Function.update_noteq hne _ _
  -- try_push_batch
  obtain ⟨b1, _, _, _⟩ := try_push_batch_spec hC hb items max_count
  obtain ⟨_, b3⟩ := try_push_batch_slots hC hb items max_count
  have hbfree : ∀ j, j < (try_push_batch C q items max_count).1 →
      (q.head + j) % C ∉ live_slots C q := by
    intro j hj
    exact free_not_live hC hb (by omega)
  have hbtail : (try_push_batch C q items max_count).2.tail = q.tail := by
    rw [try_push_batch_eq hC hb]
    split <;> rfl
  have hbatch : ∀ s, s ∈ live_slots C q →
      (try_push_batch C q items max_count).2.storage s = q.storage s := by
    intro s hs
    exact b3 s (fun j hj h => hbfree j hj (h ▸ hs))
  -- try_pop
  have hpop : (try_pop C q item).2.2.head = q.head ∧
      (try_pop C q item).2.2.storage = q.storage := by
    rw [try_pop_eq hC]
    split <;> exact ⟨rfl, rfl⟩
  -- try_pop_batch
  have hpopb : (try_pop_batch C q items max_count).2.2.head = q.head ∧
      (try_pop_batch C q items max_count).2.2.storage = q.storage := by
    rw [try_pop_batch_eq]
    split <;> exact ⟨rfl, rfl⟩
  exact ⟨hpush, ⟨hbtail, b3, hbfree, hbatch⟩, hpop, hpopb⟩

theorem cursor_ownership_witness :
    Reachable 16 (run 16 (fun _ => 0) [Call.push 5, Call.push 6]).queue ∧
    (try_push_batch 16 (run 16 (fun _ => 0) [Call.push 5, Call.push 6]).queue id 4).2.tail
      = (run 16 (fun _ => 0) [Call.push 5, Call.push 6]).queue.tail :=
  ⟨⟨fun _ => 0, [Call.push 5, Call.push 6], rfl⟩,
   (cursor_ownership 16 ⟨⟨4, rfl⟩, by decide⟩
      (run 16 (fun _ => 0) [Call.push 5, Call.push 6]).queue
      ⟨fun _ => 0, [Call.push 5, Call.push 6], rfl⟩ 0 id 4).2.1.1⟩

end SPSCQueue

end nanomq

namespace nanomq

namespace SPSCQueue

variable {α : Type}

/-! ## Construction -/

/-- C11, as the claim states it, fails when the allocation fails: the
constructor returns an object with null storage whose cursors read as an empty
queue, and that object has no valid queue state. -/
theorem construct_alloc_failure_unreported :
    (construct (none : Option (Nat → Nat))).storage_ = none ∧
    (construct (none : Option (Nat → Nat))).is_empty = true ∧
    (construct (none : Option (Nat → Nat))).state = none :=
  ⟨rfl, rfl, rfl⟩

/-- C11 (amended): the constructor always returns an object with head = tail = 0
whose storage pointer is whatever the allocation gave, so the object is the
freshly constructed queue over a valid array exactly when the allocation
succeeded and has null storage otherwise; a non-zero capacity that is not a
power of two is rejected by the capacity check. -/
theorem construct_spec (alloc : Option (Nat → α)) :
    (construct alloc).head = 0 ∧
    (construct alloc).tail = 0 ∧
    (construct alloc).storage_ = alloc ∧
    (construct alloc).state = alloc.map new ∧
    (∀ C, 0 < C → C < SIZE_T_MOD → (¬ ∃ k, C = 2 ^ k) → capacity_check C = false) := by
  refine ⟨?_, ?_, ?_, ?_, ?_⟩
  · cases alloc <;> rfl
  · cases alloc <;> rfl
  · cases alloc <;> rfl
  · cases alloc <;> rfl
  · intro C hpos hlt hnot
    cases hc : capacity_check C with
    | false => rfl
    | true =>
      rcases (capacity_check_iff C hlt).mp hc with h0 | hk
      · omega
      · exact absurd hk hnot

theorem construct_spec_witness :
    0 < 12 ∧ 12 < SIZE_T_MOD ∧ (¬ ∃ k, 12 = 2 ^ k) ∧ capacity_check 12 = false :=
  have hnot : ¬ ∃ k, 12 = 2 ^ k := by
    rintro ⟨k, hk⟩
    have h4 : k < 4 := by
      by_contra hge
      have : 2 ^ 4 ≤ 2 ^ k := Nat.pow_le_pow_right (by decide) (by omega)
      omega
    interval_cases k <;> omega
  ⟨by decide, by decide, hnot,
   (construct_spec (some (fun _ => (0 : Nat)))).2.2.2.2 12 (by decide) (by decide) hnot⟩

end SPSCQueue

/-! ## Message flags -/

theorem or_land_self (x f : Nat) : (x ||| f) &&& f = f := by
  apply Nat.eq_of_testBit_eq
  intro i
  rw [Nat.testBit_and, Nat.testBit_or]
  cases x.testBit i <;> cases f.testBit i <;> rfl

theorem or_land_disjoint {f g : Nat} (h : f &&& g = 0) (x : Nat) :
    (x ||| f) &&& g = x &&& g := by
  apply Nat.eq_of_testBit_eq
  intro i
  have hi : (f &&& g).testBit i = false := by rw [h]; exact Nat.zero_testBit i
  rw [Nat.testBit_and] at hi
  rw [Nat.testBit_and, Nat.testBit_or, Nat.testBit_and]
  cases hx : x.testBit i <;> cases hf : f.testBit i <;> cases hg : g.testBit i <;>
    simp_all

theorem testBit_not32 {f : Nat} (hf : f < 2 ^ 32) (i : Nat) :
    (0xFFFFFFFF ^^^ f).testBit i = (decide (i < 32) && !f.testBit i) := by
  have hmask : (0xFFFFFFFF : Nat) = 2 ^ 32 - 1 := by norm_num
  rw [Nat.testBit_xor, hmask, Nat.testBit_two_pow_sub_one]
  by_cases hi : i < 32
  · cases f.testBit i <;> simp [hi]
  · have hfi : f.testBit i = false :=
      Nat.testBit_lt_two_pow (Nat.lt_of_lt_of_le hf (Nat.pow_le_pow_right (by decide) (by omega)))
    simp [hi, hfi]

theorem land_not32_self {f : Nat} (hf : f < 2 ^ 32) (x : Nat) :
    (x &&& (0xFFFFFFFF ^^^ f)) &&& f = 0 := by
  apply Nat.eq_of_testBit_eq
  intro i
  rw [Nat.testBit_and, Nat.testBit_and, testBit_not32 hf, Nat.zero_testBit]
  cases x.testBit i <;> cases f.testBit i <;> simp

theorem land_not32_disjoint {f g : Nat} (hf : f < 2 ^ 32) (hg : g < 2 ^ 32)
    (h : f &&& g = 0) (x : Nat) :
    (x &&& (0xFFFFFFFF ^^^ f)) &&& g = x &&& g := by
  apply Nat.eq_of_testBit_eq
  intro i
  have hi : (f &&& g).testBit i = false := by rw [h]; exact Nat.zero_testBit i
  rw [Nat.testBit_and] at hi
  rw [Nat.testBit_and, Nat.testBit_and, testBit_not32 hf, Nat.testBit_and]
  by_cases h32 : i < 32
  · cases hx : x.testBit i <;> cases hf2 : f.testBit i <;> cases hg2 : g.testBit i <;>
      simp_all
  · have hgi : g.testBit i = false :=
      Nat.testBit_lt_two_pow (Nat.lt_of_lt_of_le hg (Nat.pow_le_pow_right (by decide) (by omega)))
    simp [hgi]

theorem message_flags_cases {f : Nat} (hf : f ∈ message_flags) :
    f = 1 ∨ f = 2 ∨ f = 4 ∨ f = 8 := by
  simpa [message_flags, MSG_FLAG_COMPRESSED, MSG_FLAG_ENCRYPTED, MSG_FLAG_PERSISTENT,
    MSG_FLAG_PRIORITY] using hf

theorem message_flags_disjoint {f g : Nat} (hf : f ∈ message_flags) (hg : g ∈ message_flags)
    (hne : f ≠ g) : f &&& g = 0 := by
  rcases message_flags_cases hf with rfl | rfl | rfl | rfl <;>
    rcases message_flags_cases hg with rfl | rfl | rfl | rfl <;>
    first
      | exact absurd rfl hne
      | decide

theorem message_flags_lt {f : Nat} (hf : f ∈ message_flags) : f < 2 ^ 32 := by
  rcases message_flags_cases hf with rfl | rfl | rfl | rfl <;> decide

theorem message_flags_ne_zero {f : Nat} (hf : f ∈ message_flags) : f ≠ 0 := by
  rcases message_flags_cases hf with rfl | rfl | rfl | rfl <;> decide

namespace Message

/-- C19: for every message and every flag f among COMPRESSED, ENCRYPTED,
PERSISTENT and PRIORITY, has_flag(f) is true right after set_flag(f), whatever
the flags were before. -/
theorem has_flag_set_flag (m : Message) (f : Nat) (hf : f ∈ message_flags) :
    (m.set_flag f).has_flag f = true := by
  unfold has_flag set_flag
  simp only [or_land_self]
  exact bne_iff_ne.mpr (message_flags_ne_zero hf)

theorem has_flag_set_flag_witness :
    MSG_FLAG_PERSISTENT ∈ message_flags ∧
    (ctor.set_flag MSG_FLAG_PERSISTENT).has_flag MSG_FLAG_PERSISTENT = true :=
  ⟨by decide, has_flag_set_flag ctor MSG_FLAG_PERSISTENT (by decide)⟩

/-- C20: for every message and every flag f among COMPRESSED, ENCRYPTED,
PERSISTENT and PRIORITY, has_flag(f) is false right after clear_flag(f),
whatever the flags were before. -/
theorem has_flag_clear_flag (m : Message) (f : Nat) (hf : f ∈ message_flags) :
    (m.clear_flag f).has_flag f = false := by
  unfold has_flag clear_flag
  simp only [land_not32_self (message_flags_lt hf)]
  rfl

theorem has_flag_clear_flag_witness :
    MSG_FLAG_COMPRESSED ∈ message_flags ∧
    ((ctor.set_flag MSG_FLAG_COMPRESSED).clear_flag MSG_FLAG_COMPRESSED).has_flag
      MSG_FLAG_COMPRESSED = false :=
  ⟨by decide,
   has_flag_clear_flag (ctor.set_flag MSG_FLAG_COMPRESSED) MSG_FLAG_COMPRESSED (by decide)⟩

/-- C18: for every message and every two distinct flags f and g among
COMPRESSED, ENCRYPTED, PERSISTENT and PRIORITY, set_flag(f) and clear_flag(f)
leave has_flag(g) as it was; and once all four flags have been set, has_flag
reports each of them. -/
theorem flags_independent (m : Message) (f g : Nat) (hf : f ∈ message_flags)
    (hg : g ∈ message_flags) (hne : f ≠ g) :
    (m.set_flag f).has_flag g = m.has_flag g ∧
    (m.clear_flag f).has_flag g = m.has_flag g ∧
    (∀ h, h ∈ message_flags →
      ((((m.set_flag MSG_FLAG_COMPRESSED).set_flag MSG_FLAG_ENCRYPTED).set_flag
        MSG_FLAG_PERSISTENT).set_flag MSG_FLAG_PRIORITY).has_flag h = true) := by
  have hdis := message_flags_disjoint hf hg hne
  refine ⟨?_, ?_, ?_⟩
  · unfold has_flag set_flag
    simp only [or_land_disjoint hdis]
  · unfold has_flag clear_flag
    simp only [land_not32_disjoint (message_flags_lt hf) (message_flags_lt hg) hdis]
  · intro h hh
    have hall : ∀ x : Nat, (((x ||| 1) ||| 2) ||| 4) ||| 8 = x ||| 15 := by
      intro x
      rw [Nat.or_assoc, Nat.or_assoc, Nat.or_assoc]
      rfl
    unfold has_flag set_flag
    simp only [MSG_FLAG_COMPRESSED, MSG_FLAG_ENCRYPTED, MSG_FLAG_PERSISTENT, MSG_FLAG_PRIORITY,
      Nat.shiftLeft_zero, Nat.reduceShiftLeft, hall]
    have hsub : (m.header.flags ||| 15) &&& h = h := by
      apply Nat.eq_of_testBit_eq
      intro i
      rw [Nat.testBit_and, Nat.testBit_or]
      rcases message_flags_cases hh with rfl | rfl | rfl | rfl <;>
        by_cases hi : i < 4 <;>
        first
          | (interval_cases i <;> cases m.header.flags.testBit _ <;> decide)
          | (have h1 : Nat.testBit 1 i = false := Nat.testBit_lt_two_pow
              (Nat.lt_of_lt_of_le (by decide : 1 < 2 ^ 4)
                (Nat.pow_le_pow_right (by decide) (by omega)))
             have h2 : Nat.testBit 2 i = false := Nat.testBit_lt_two_pow
              (Nat.lt_of_lt_of_le (by decide : 2 < 2 ^ 4)
                (Nat.pow_le_pow_right (by decide) (by omega)))
             have h4 : Nat.testBit 4 i = false := Nat.testBit_lt_two_pow
              (Nat.lt_of_lt_of_le (by decide : 4 < 2 ^ 4)
                (Nat.pow_le_pow_right (by decide) (by omega)))
             have h8 : Nat.testBit 8 i = false := Nat.testBit_lt_two_pow
              (Nat.lt_of_lt_of_le (by decide : 8 < 2 ^ 4)
                (Nat.pow_le_pow_right (by decide) (by omega)))
             simp [h1, h2, h4, h8])
    rw [hsub]
    exact bne_iff_ne.mpr (message_flags_ne_zero hh)

theorem flags_independent_witness :
    MSG_FLAG_COMPRESSED ∈ message_flags ∧ MSG_FLAG_PERSISTENT ∈ message_flags ∧
    MSG_FLAG_COMPRESSED ≠ MSG_FLAG_PERSISTENT ∧
    (ctor.set_flag MSG_FLAG_COMPRESSED).has_flag MSG_FLAG_PERSISTENT
      = ctor.has_flag MSG_FLAG_PERSISTENT :=
  ⟨by decide, by decide, by decide,
   (flags_independent ctor MSG_FLAG_COMPRESSED MSG_FLAG_PERSISTENT (by decide) (by decide)
      (by decide)).1⟩

end Message

/-! ## The checksum -/

theorem crc32_poly_lt : CRC32_POLY < 2 ^ 32 := by decide

theorem crc32_step_lt {c : Nat} (hc : c < 2 ^ 32) : crc32_step c < 2 ^ 32 := by
  unfold crc32_step
  split
  · exact Nat.xor_lt_two_pow (by omega) crc32_poly_lt
  · omega

/-- Xor with the polynomial sets bit 31 of a register value below `2 ^ 31`. -/
theorem le_xor_poly {x : Nat} (hx : x < 2 ^ 31) : 2 ^ 31 ≤ x ^^^ CRC32_POLY := by
  apply Nat.testBit_implies_ge
  rw [Nat.testBit_xor, Nat.testBit_lt_two_pow hx]
  decide

theorem crc32_step_inj {a b : Nat} (ha : a < 2 ^ 32) (hb : b < 2 ^ 32)
    (h : crc32_step a = crc32_step b) : a = b := by
  unfold crc32_step at h
  have ha2 : a / 2 < 2 ^ 31 := by omega
  have hb2 : b / 2 < 2 ^ 31 := by omega
  split at h <;> split at h
  · have := Nat.xor_left_inj.mp h
    omega
  · have := le_xor_poly ha2
    omega
  · have := le_xor_poly hb2
    omega
  · omega

theorem crc32_step_iterate_lt (n : Nat) {c : Nat} (hc : c < 2 ^ 32) :
    crc32_step^[n] c < 2 ^ 32 := by
  induction n generalizing c with
  | zero => exact hc
  | succ n ih =>
    rw [Function.iterate_succ_apply]
    exact ih (crc32_step_lt hc)

theorem crc32_step_iterate_inj (n : Nat) {a b : Nat} (ha : a < 2 ^ 32) (hb : b < 2 ^ 32)
    (h : crc32_step^[n] a = crc32_step^[n] b) : a = b := by
  induction n generalizing a b with
  | zero => exact h
  | succ n ih =>
    rw [Function.iterate_succ_apply, Function.iterate_succ_apply] at h
    exact crc32_step_inj ha hb (ih (crc32_step_lt ha) (crc32_step_lt hb) h)

theorem xor_byte_lt {c b : Nat} (hc : c < 2 ^ 32) (hb : b < 256) : c ^^^ b < 2 ^ 32 :=
  Nat.xor_lt_two_pow hc (by omega)

theorem crc32_byte_lt {c b : Nat} (hc : c < 2 ^ 32) (hb : b < 256) :
    crc32_byte c b < 2 ^ 32 :=
  crc32_step_iterate_lt 8 (xor_byte_lt hc hb)

/-- Two different bytes lead the same register to different values. -/
theorem crc32_byte_inj_right {c b d : Nat} (hc : c < 2 ^ 32) (hb : b < 256) (hd : d < 256)
    (h : crc32_byte c b = crc32_byte c d) : b = d :=
  Nat.xor_right_inj.mp (crc32_step_iterate_inj 8 (xor_byte_lt hc hb) (xor_byte_lt hc hd) h)

/-- The same byte leads different registers to different values. -/
theorem crc32_byte_inj_left {c e b : Nat} (hc : c < 2 ^ 32) (he : e < 2 ^ 32) (hb : b < 256)
    (h : crc32_byte c b = crc32_byte e b) : c = e :=
  Nat.xor_left_inj.mp (crc32_step_iterate_inj 8 (xor_byte_lt hc hb) (xor_byte_lt he hb) h)

theorem crc32_foldl_lt (bytes : List Nat) (hbytes : ∀ b ∈ bytes, b < 256) :
    ∀ {c : Nat}, c < 2 ^ 32 → bytes.foldl crc32_byte c < 2 ^ 32 := by
  induction bytes with
  | nil => intro c hc; exact hc
  | cons b rest ih =>
    intro c hc
    rw [List.foldl_cons]
    exact ih (fun x hx => hbytes x (List.mem_cons_of_mem _ hx))
      (crc32_byte_lt hc (hbytes b (List.mem_cons_self _ _)))

theorem crc32_foldl_inj (bytes : List Nat) (hbytes : ∀ b ∈ bytes, b < 256) :
    ∀ {c e : Nat}, c < 2 ^ 32 → e < 2 ^ 32 →
      bytes.foldl crc32_byte c = bytes.foldl crc32_byte e → c = e := by
  induction bytes with
  | nil => intro c e _ _ h; exact h
  | cons b rest ih =>
    intro c e hc he h
    rw [List.foldl_cons, List.foldl_cons] at h
    have hb := hbytes b (List.mem_cons_self _ _)
    exact crc32_byte_inj_left hc he hb
      (ih (fun x hx => hbytes x (List.mem_cons_of_mem _ hx))
        (crc32_byte_lt hc hb) (crc32_byte_lt he hb) h)

theorem crc32_bytes_lt (bytes : List Nat) (hbytes : ∀ b ∈ bytes, b < 256) :
    crc32_bytes bytes < 2 ^ 32 := by
  unfold crc32_bytes
  exact Nat.xor_lt_two_pow (crc32_foldl_lt bytes hbytes (by decide)) (by decide)

/-- Replacing one byte of a sequence by a different byte changes its CRC-32. -/
theorem crc32_bytes_set_ne (bytes : List Nat) (hbytes : ∀ b ∈ bytes, b < 256) (i : Nat)
    (hi : i < bytes.length) (d : Nat) (hd : d < 256) (hne : d ≠ bytes[i]) :
    crc32_bytes (bytes.set i d) ≠ crc32_bytes bytes := by
  intro h
  unfold crc32_bytes at h
  have h1 := Nat.xor_left_inj.mp h
  have hsplit : bytes = bytes.take i ++ bytes[i] :: bytes.drop (i + 1) := by
    rw [← List.drop_eq_getElem_cons hi, List.take_append_drop]
  have hset : bytes.set i d = bytes.take i ++ d :: bytes.drop (i + 1) :=
    List.set_eq_take_append_cons_drop.trans (by rw [if_pos hi])
  have hpre : ∀ b ∈ bytes.take i, b < 256 := fun b hb => hbytes b (List.mem_of_mem_take hb)
  have hpost : ∀ b ∈ bytes.drop (i + 1), b < 256 :=
    fun b hb => hbytes b (List.mem_of_mem_drop hb)
  have hbi : bytes[i] < 256 := hbytes _ (List.getElem_mem _)
  have hc : (bytes.take i).foldl crc32_byte 0xFFFFFFFF < 2 ^ 32 :=
    crc32_foldl_lt _ hpre (by decide)
  rw [hset] at h1
  conv at h1 => rhs; rw [hsplit]
  rw [List.foldl_append, List.foldl_append, List.foldl_cons, List.foldl_cons] at h1
  have h2 := crc32_foldl_inj _ hpost (crc32_byte_lt hc hd) (crc32_byte_lt hc hbi) h1
  exact hne (crc32_byte_inj_right hc hd hbi h2)

theorem crc32_foldl_zeros (k : Nat) : (List.replicate k 0).foldl crc32_byte 0 = 0 := by
  induction k with
  | zero => rfl
  | succ k ih =>
    rw [List.replicate_succ, List.foldl_cons]
    have h0 : crc32_byte 0 0 = 0 := by decide
    rw [h0]
    exact ih

theorem read_bytes_some {region : List Nat} {n : Nat} (h : n ≤ region.length) :
    read_bytes (some region) n = some (region.take n) := by
  cases n with
  | zero => rfl
  | succ k =>
    unfold read_bytes
    simp only [if_pos h]

theorem calculate_crc32_some {region : List Nat} {n : Nat} (h : n ≤ region.length) :
    calculate_crc32 (some region) n = some (crc32_bytes (region.take n)) := by
  unfold calculate_crc32
  rw [read_bytes_some h]
  rfl

theorem length_ones_then_zeros (k : Nat) : (ones_then_zeros k).length = 4 + k := by
  unfold ones_then_zeros
  rw [List.length_append, List.length_replicate]
  rfl

/-- The four `0xFF` bytes clear the register and zero bytes keep it clear. -/
theorem crc32_bytes_ones_then_zeros (k : Nat) : crc32_bytes (ones_then_zeros k) = 0xFFFFFFFF := by
  have h4 : List.foldl crc32_byte 0xFFFFFFFF [255, 255, 255, 255] = 0 := by decide
  unfold crc32_bytes ones_then_zeros
  rw [List.foldl_append, h4, crc32_foldl_zeros]
  rfl

theorem take_four_ones_then_zeros (k : Nat) :
    (ones_then_zeros k).take 4 = [255, 255, 255, 255] := by
  unfold ones_then_zeros
  exact List.take_left' rfl

theorem length_flip_bit (buffer : List Nat) (i j : Nat) :
    (flip_bit buffer i j).length = buffer.length := by
  unfold flip_bit
  exact List.length_set _ _ _

theorem take_flip_bit_of_le (buffer : List Nat) {n i : Nat} (h : n ≤ i) (j : Nat) :
    (flip_bit buffer i j).take n = buffer.take n := by
  unfold flip_bit
  rw [List.set_take]
  exact List.set_eq_of_length_le (Nat.le_trans (List.length_take_le _ _) h)

theorem flip_bit_eq_set {buffer : List Nat} {i : Nat} (hi : i < buffer.length) (j : Nat) :
    flip_bit buffer i j = buffer.set i (buffer[i] ^^^ (1 <<< j)) := by
  unfold flip_bit
  rw [List.getD_eq_getElem _ _ hi]

theorem one_shiftLeft_lt {j : Nat} (hj : j < 8) : 1 <<< j < 2 ^ 8 := by
  rw [Nat.one_shiftLeft]
  exact Nat.pow_lt_pow_right (by decide) hj

theorem one_shiftLeft_ne_zero (j : Nat) : 1 <<< j ≠ 0 := by
  rw [Nat.one_shiftLeft]
  exact Nat.ne_of_gt (Nat.two_pow_pos j)

theorem xor_bit_lt {b j : Nat} (hb : b < 256) (hj : j < 8) : b ^^^ (1 <<< j) < 256 :=
  Nat.xor_lt_two_pow (n := 8) hb (one_shiftLeft_lt hj)

theorem xor_bit_ne (b j : Nat) : b ^^^ (1 <<< j) ≠ b := by
  intro h
  have h0 : b ^^^ (1 <<< j) = b ^^^ 0 := by rw [h, Nat.xor_zero]
  exact one_shiftLeft_ne_zero j (Nat.xor_right_inj.mp h0)

namespace Message

theorem ctor_payload_some (id timestamp topic_id : Nat) {region : List Nat} {n : Nat}
    (h : n ≤ region.length) :
    ctor_payload id timestamp topic_id (some region) n =
      some { header := { id := id, timestamp := timestamp, topic_id := topic_id,
                         size := n % UINT32_MOD, crc32 := crc32_bytes (region.take n),
                         flags := MSG_FLAG_NONE, padding := List.replicate 28 0 },
             data := none } := by
  unfold ctor_payload
  rw [calculate_crc32_some h]
  rfl

theorem verify_checksum_some (m : Message) {region : List Nat}
    (h : m.header.size ≤ region.length) :
    (m.set_data (some region)).verify_checksum =
      some (m.header.crc32 == crc32_bytes (region.take m.header.size)) := by
  unfold verify_checksum set_data
  simp only
  rw [calculate_crc32_some h]

end Message

namespace Message

/-! ## Checksum verification -/

/-- C13, as the claim states it, fails: right after the payload constructor the
pointer `data` is null, so verify_checksum() on a one-byte payload has no bytes
to read and no result; and with `data` bound to the payload, a payload of
`2 ^ 32` bytes has its size stored as 0 and verify_checksum() returns false. -/
theorem verify_checksum_after_ctor_fails :
    (ctor_payload 1 0 42 (some [84]) 1).map verify_checksum = some none ∧
    (ctor_payload 1 0 42 (some (ones_then_zeros (2 ^ 32 - 4))) (2 ^ 32)).map
      (fun m => (m.set_data (some (ones_then_zeros (2 ^ 32 - 4)))).verify_checksum)
      = some (some false) := by
  constructor
  · rw [ctor_payload_some 1 0 42 (by decide : 1 ≤ [84].length)]
    rfl
  · have hlen : (ones_then_zeros (2 ^ 32 - 4)).length = 2 ^ 32 := by
      rw [length_ones_then_zeros]
      decide
    have hle : 2 ^ 32 ≤ (ones_then_zeros (2 ^ 32 - 4)).length := Nat.le_of_eq hlen.symm
    rw [ctor_payload_some 1 0 42 hle, Option.map_some']
    have hsize : 2 ^ 32 % UINT32_MOD = 0 := by decide
    rw [verify_checksum_some _ (by simp only [hsize]; exact Nat.zero_le _)]
    simp only [hsize, List.take_zero]
    rw [List.take_of_length_le (Nat.le_of_eq hlen), crc32_bytes_ones_then_zeros]
    rfl

/-- C13 (amended): for every payload p of fewer than 2^32 bytes, the payload
constructor succeeds, and once `data` has been pointed at a region that starts
with a copy of p, verify_checksum() returns true. -/
theorem verify_checksum_after_binding (id timestamp topic_id : Nat) (p rest : List Nat)
    (hlen : p.length < 2 ^ 32) :
    ∃ m, ctor_payload id timestamp topic_id (some p) p.length = some m ∧
      (m.set_data (some (p ++ rest))).verify_checksum = some true := by
  refine ⟨_, ctor_payload_some id timestamp topic_id (Nat.le_refl _), ?_⟩
  have hsize : p.length % UINT32_MOD = p.length := Nat.mod_eq_of_lt hlen
  rw [verify_checksum_some _ (by simp only [hsize, List.length_append]; omega)]
  simp only [hsize, List.take_length, List.take_left, beq_self_eq_true]

theorem verify_checksum_after_binding_witness :
    (ascii_bytes "Test message payload").length < 2 ^ 32 ∧
    ∃ m, ctor_payload 1 0 42 (some (ascii_bytes "Test message payload"))
        (ascii_bytes "Test message payload").length = some m ∧
      (m.set_data (some (ascii_bytes "Test message payload" ++ []))).verify_checksum
        = some true :=
  ⟨by decide,
   verify_checksum_after_binding 1 0 42 (ascii_bytes "Test message payload") [] (by decide)⟩

/-- C14, as the claim states it, fails for a payload of `2 ^ 32 + 4` bytes
(four bytes 0xFF, then zeros): its size is stored as 4, and after bit 0 of byte
4 of the referenced copy is flipped verify_checksum() still returns true. -/
theorem verify_checksum_misses_bit_flip :
    ones_then_zeros (2 ^ 32) ≠ [] ∧
    4 < (ones_then_zeros (2 ^ 32)).length ∧
    (ctor_payload 1 0 42 (some (ones_then_zeros (2 ^ 32))) (2 ^ 32 + 4)).map
      (fun m => (m.set_data (some (flip_bit (ones_then_zeros (2 ^ 32)) 4 0))).verify_checksum)
      = some (some true) := by
  have hlen : (ones_then_zeros (2 ^ 32)).length = 2 ^ 32 + 4 := by
    rw [length_ones_then_zeros, Nat.add_comm]
  have hle : 2 ^ 32 + 4 ≤ (ones_then_zeros (2 ^ 32)).length := Nat.le_of_eq hlen.symm
  refine ⟨?_, by rw [hlen]; decide, ?_⟩
  · intro h
    rw [h] at hlen
    exact absurd hlen (by decide)
  · rw [ctor_payload_some 1 0 42 hle, Option.map_some']
    have hsize : (2 ^ 32 + 4) % UINT32_MOD = 4 := by decide
    rw [verify_checksum_some _
      (by simp only [hsize]; rw [length_flip_bit, hlen]; decide)]
    simp only [hsize]
    rw [take_flip_bit_of_le _ (Nat.le_refl 4), take_four_ones_then_zeros,
      List.take_of_length_le (Nat.le_of_eq hlen), crc32_bytes_ones_then_zeros]
    have h4 : crc32_bytes [255, 255, 255, 255] = 0xFFFFFFFF := by decide
    rw [h4]
    rfl

/-- C14 (amended): for every non-empty payload of fewer than 2^32 bytes and
every bit position in it, when a message is built from the payload and `data`
references a copy of it, verify_checksum() returns true, and after that one bit
of the copy is flipped it returns false. -/
theorem verify_checksum_detects_bit_flip (id timestamp topic_id : Nat) (p : List Nat)
    (hbytes : ∀ b ∈ p, b < 256) (hlen : p.length < 2 ^ 32) (i j : Nat) (hi : i < p.length)
    (hj : j < 8) :
    ∃ m, ctor_payload id timestamp topic_id (some p) p.length = some m ∧
      (m.set_data (some p)).verify_checksum = some true ∧
      (m.set_data (some (flip_bit p i j))).verify_checksum = some false := by
  refine ⟨_, ctor_payload_some id timestamp topic_id (Nat.le_refl _), ?_, ?_⟩
  · have hsize : p.length % UINT32_MOD = p.length := Nat.mod_eq_of_lt hlen
    rw [verify_checksum_some _ (by simp only [hsize]; exact Nat.le_refl _)]
    simp only [hsize, List.take_length, beq_self_eq_true]
  · have hsize : p.length % UINT32_MOD = p.length := Nat.mod_eq_of_lt hlen
    rw [verify_checksum_some _ (by simp only [hsize]; rw [length_flip_bit])]
    simp only [hsize, List.take_length]
    have hflip : (flip_bit p i j).take p.length = flip_bit p i j :=
      List.take_of_length_le (Nat.le_of_eq (length_flip_bit p i j))
    rw [hflip, flip_bit_eq_set hi]
    have hbi : p[i] < 256 := hbytes _ (List.getElem_mem _)
    have hne := crc32_bytes_set_ne p hbytes i hi _ (xor_bit_lt hbi hj) (xor_bit_ne p[i] j)
    exact congrArg some (beq_eq_false_iff_ne.mpr (Ne.symm hne))

theorem verify_checksum_detects_bit_flip_witness :
    (∀ b ∈ ascii_bytes "Test", b < 256) ∧ (ascii_bytes "Test").length < 2 ^ 32 ∧
    0 < (ascii_bytes "Test").length ∧ 7 < 8 ∧
    ∃ m, ctor_payload 1 0 42 (some (ascii_bytes "Test")) (ascii_bytes "Test").length = some m ∧
      (m.set_data (some (ascii_bytes "Test"))).verify_checksum = some true ∧
      (m.set_data (some (flip_bit (ascii_bytes "Test") 0 7))).verify_checksum = some false :=
  ⟨by decide, by decide, by decide, by decide,
   verify_checksum_detects_bit_flip 1 0 42 (ascii_bytes "Test") (by decide) (by decide) 0 7
     (by decide) (by decide)⟩

/-! ## The stored size -/

/-- C15, as the claim states it, fails for payload_size = 2^32: the constructor
stores size 0. -/
theorem ctor_payload_size_truncated :
    (ctor_payload 1 0 42 (some (ones_then_zeros (2 ^ 32 - 4))) (2 ^ 32)).map
      (fun m => m.header.size) = some 0 := by
  have hle : 2 ^ 32 ≤ (ones_then_zeros (2 ^ 32 - 4)).length := by
    rw [length_ones_then_zeros]
    decide
  rw [ctor_payload_some 1 0 42 hle, Option.map_some']
  have hsize : 2 ^ 32 % UINT32_MOD = 0 := by decide
  simp only [hsize]

/-- C15 (amended): the payload constructor stores header.size = payload_size
mod 2^32; for every payload_size below 2^32 that is payload_size itself, the
length over which the stored crc32 was computed. -/
theorem ctor_payload_size (id timestamp topic_id : Nat) (payload : Option (List Nat))
    (payload_size : Nat) (m : Message)
    (hm : ctor_payload id timestamp topic_id payload payload_size = some m) :
    m.header.size = payload_size % 2 ^ 32 ∧
    calculate_crc32 payload payload_size = some m.header.crc32 ∧
    (payload_size < 2 ^ 32 →
      m.header.size = payload_size ∧
      calculate_crc32 payload m.header.size = some m.header.crc32) := by
  unfold ctor_payload at hm
  cases hcrc : calculate_crc32 payload payload_size with
  | none => rw [hcrc] at hm; exact absurd hm (by simp)
  | some crc =>
    rw [hcrc] at hm
    have hm2 := (Option.some.inj hm).symm
    subst hm2
    refine ⟨rfl, rfl, ?_⟩
    intro hlt
    have hsize : payload_size % UINT32_MOD = payload_size := Nat.mod_eq_of_lt hlt
    simp only [hsize]
    exact ⟨trivial, hcrc⟩

theorem ctor_payload_size_witness :
    ctor_payload 1 0 42 (some [1, 2, 3]) 3
      = some { header := { id := 1, timestamp := 0, topic_id := 42, size := 3,
                           crc32 := crc32_bytes [1, 2, 3], flags := 0,
                           padding := List.replicate 28 0 },
               data := none } ∧
    (3 : Nat) < 2 ^ 32 ∧
    calculate_crc32 (some [1, 2, 3]) 3 = some (crc32_bytes [1, 2, 3]) :=
  ⟨ctor_payload_some 1 0 42 (by decide), by decide,
   ((ctor_payload_size 1 0 42 (some [1, 2, 3]) 3 _
      (ctor_payload_some 1 0 42 (by decide))).2.2 (by decide)).2⟩

end Message

/-! ## The checksum function -/

/-- C16: calculate_crc32 depends on nothing but the bytes it is asked to read:
on two regions whose first `size` bytes are identical it returns the same code,
and that code is a 32-bit value. -/
theorem calculate_crc32_deterministic (region1 region2 : List Nat) (size : Nat)
    (h1 : size ≤ region1.length) (h2 : size ≤ region2.length)
    (heq : region1.take size = region2.take size)
    (hbytes : ∀ b ∈ region1.take size, b < 256) :
    calculate_crc32 (some region1) size = calculate_crc32 (some region2) size ∧
    ∃ code, code < 2 ^ 32 ∧ calculate_crc32 (some region1) size = some code := by
  rw [calculate_crc32_some h1, calculate_crc32_some h2, heq]
  exact ⟨rfl, _, crc32_bytes_lt _ (heq ▸ hbytes), rfl⟩

set_option maxRecDepth 100000 in
theorem calculate_crc32_deterministic_witness :
    calculate_crc32 (some (ascii_bytes "Hello, NanoMQ!")) 14
      = calculate_crc32 (some (ascii_bytes "Hello, NanoMQ! and more")) 14 ∧
    ∃ code, code < 2 ^ 32 ∧
      calculate_crc32 (some (ascii_bytes "Hello, NanoMQ!")) 14 = some code :=
  calculate_crc32_deterministic (ascii_bytes "Hello, NanoMQ!")
    (ascii_bytes "Hello, NanoMQ! and more") 14 (by decide) (by decide) (by decide) (by decide)

set_option maxRecDepth 100000 in
/-- C17: calculate_crc32 of the 14 bytes of "Hello, NanoMQ!" and of the 13 bytes
of "Hello, World!" are two different codes. -/
theorem calculate_crc32_hello_ne :
    calculate_crc32 (some (ascii_bytes "Hello, NanoMQ!")) 14 = some 2132676189 ∧
    calculate_crc32 (some (ascii_bytes "Hello, World!")) 13 = some 3964322768 ∧
    calculate_crc32 (some (ascii_bytes "Hello, NanoMQ!")) 14
      ≠ calculate_crc32 (some (ascii_bytes "Hello, World!")) 13 := by
  decide

/-! ## Layout of the header -/

/-- C21: the declared members of MessageHeader (id 8 bytes, timestamp 8,
topic_id 4, size 4, crc32 4, flags 4, padding 28) follow each other without gaps
and total 60 bytes, not 64; sizeof and alignof are 64 and the static_assert
holds only because alignas(64) rounds the size up, which leaves the last 4
bytes of the record outside every declared member. -/
theorem message_header_declared_bytes :
    MessageHeader.declared_bytes = 60 ∧
    layout_end MessageHeader.members = 60 ∧
    MessageHeader.sizeof = 64 ∧
    MessageHeader.alignof = 64 ∧
    MessageHeader.size_check = true ∧
    MessageHeader.sizeof - MessageHeader.declared_bytes = 4 ∧
    MessageHeader.ctor.padding = List.replicate 28 0 := by
  decide

/-! ## MessageBatch -/

namespace MessageBatch

theorem add_of_lt {b : MessageBatch} (h : b.count < 256) (msg : Message) :
    b.add msg = { messages := Function.update b.messages b.count msg, count := b.count + 1 } := by
  have hf : b.is_full = false := by
    unfold is_full MAX_BATCH_SIZE
    exact decide_eq_false (by omega)
  unfold add
  rw [hf]
  rfl

/-- Adding messages to a batch with room for all of them. -/
theorem foldl_add (msgs : List Message) :
    ∀ b : MessageBatch, b.count + msgs.length ≤ 256 →
      (msgs.foldl add b).count = b.count + msgs.length ∧
      (∀ i (hi : i < msgs.length), (msgs.foldl add b).messages (b.count + i) = msgs[i]) ∧
      (∀ j, j < b.count → (msgs.foldl add b).messages j = b.messages j) := by
  induction msgs with
  | nil =>
    intro b _
    exact ⟨rfl, fun i hi => absurd hi (Nat.not_lt_zero i), fun _ _ => rfl⟩
  | cons m rest ih =>
    intro b hb
    simp only [List.length_cons] at hb
    rw [List.foldl_cons, add_of_lt (by omega)]
    obtain ⟨h1, h2, h3⟩ := ih
      { messages := Function.update b.messages b.count m, count := b.count + 1 }
      (by simp only; omega)
    simp only at h1 h2 h3
    refine ⟨?_, ?_, ?_⟩
    · rw [h1, List.length_cons]; omega
    · intro i hi
      cases i with
      | zero =>
        simp only [Nat.add_zero, List.getElem_cons_zero]
        rw [h3 b.count (by omega), Function.update_same]
      | succ k =>
        have hk : k < rest.length := by
          simp only [List.length_cons] at hi; omega
        have := h2 k hk
        rw [show b.count + (k + 1) = b.count + 1 + k by omega, this]
        rfl
    · intro j hj
      rw [h3 j (by omega), Function.update_noteq (by omega)]

/-- C24: after k <= 256 calls to add on an empty batch, count is k and
messages[i] is the i-th added message for every i < k; is_empty() holds iff
count is 0, is_full() holds iff count is 256, and clear() makes the batch
empty. -/
theorem add_sequence (msgs : List Message) (hk : msgs.length ≤ 256) :
    (msgs.foldl add ctor).count = msgs.length ∧
    (∀ i (hi : i < msgs.length), (msgs.foldl add ctor).messages i = msgs[i]) ∧
    ((msgs.foldl add ctor).is_empty = true ↔ (msgs.foldl add ctor).count = 0) ∧
    ((msgs.foldl add ctor).is_full = true ↔ (msgs.foldl add ctor).count = 256) ∧
    (msgs.foldl add ctor).clear.is_empty = true ∧
    (msgs.foldl add ctor).clear.count = 0 := by
  obtain ⟨h1, h2, _⟩ := foldl_add msgs ctor (by simp only [ctor]; omega)
  have hc : (msgs.foldl add ctor).count = msgs.length := by
    rw [h1]; simp only [ctor]; omega
  refine ⟨hc, ?_, ?_, ?_, rfl, rfl⟩
  · intro i hi
    have := h2 i hi
    simp only [ctor, Nat.zero_add] at this
    exact this
  · unfold is_empty
    exact beq_iff_eq
  · unfold is_full MAX_BATCH_SIZE
    rw [decide_eq_true_iff, hc]
    omega

theorem add_sequence_witness :
    ((List.range 10).map
        (fun i => ({ Message.ctor with header := { MessageHeader.ctor with id := i } } : Message))
      ).length ≤ 256 ∧
    (((List.range 10).map
        (fun i => ({ Message.ctor with header := { MessageHeader.ctor with id := i } } : Message))
      ).foldl add ctor).count = 10 :=
  ⟨by decide,
   (add_sequence ((List.range 10).map
        (fun i => ({ Message.ctor with header := { MessageHeader.ctor with id := i } } : Message)))
      (by decide)).1⟩

end MessageBatch

/-! ## Publisher and subscriber -/

namespace Publisher

theorem publish_fst (p : Publisher) (topic : String) (data : Option (List Nat)) (size : Nat) :
    (p.publish topic data size).1 = (1 + p.messages_sent_) % UINT64_MOD := rfl

theorem publish_sent (p : Publisher) (topic : String) (data : Option (List Nat)) (size : Nat) :
    (p.publish topic data size).2.messages_sent_ = (1 + p.messages_sent_) % UINT64_MOD := rfl

/-- The counter after a sequence of calls to `publish` on a new publisher. -/
theorem sent_after_calls (address : String) (calls : List (String × Option (List Nat) × Nat)) :
    calls.length < 2 ^ 64 →
    (calls.foldl (fun p c => (p.publish c.1 c.2.1 c.2.2).2) (ctor address)).messages_sent_
      = calls.length := by
  induction calls using List.reverseRecOn with
  | nil => intro _; rfl
  | append_singleton init c ih =>
    intro hlen
    rw [List.length_append, List.length_singleton] at hlen
    rw [List.foldl_append, List.foldl_cons, List.foldl_nil, publish_sent, ih (by omega),
      List.length_append, List.length_singleton, UINT64_MOD, Nat.add_comm 1]
    exact Nat.mod_eq_of_lt hlen

theorem publish_batch_succ (p : Publisher) (topic : String)
    (data_array : Nat → Option (List Nat)) (size_array : Nat → Nat) (n : Nat) :
    p.publish_batch topic data_array size_array (n + 1) =
      (if ((p.publish_batch topic data_array size_array n).2.publish topic (data_array n)
            (size_array n)).1 > 0
        then (p.publish_batch topic data_array size_array n).1 + 1
        else (p.publish_batch topic data_array size_array n).1,
       ((p.publish_batch topic data_array size_array n).2.publish topic (data_array n)
            (size_array n)).2) := by
  unfold publish_batch
  rw [List.range_succ, List.foldl_append]
  rfl

theorem publish_batch_no_wrap (p : Publisher) (topic : String)
    (data_array : Nat → Option (List Nat)) (size_array : Nat → Nat) (count : Nat) :
    p.messages_sent_ + count < 2 ^ 64 →
    (p.publish_batch topic data_array size_array count).1 = count ∧
    (p.publish_batch topic data_array size_array count).2.messages_sent_
      = p.messages_sent_ + count := by
  induction count with
  | zero => intro _; exact ⟨rfl, rfl⟩
  | succ n ih =>
    intro hlt
    obtain ⟨h1, h2⟩ := ih (by omega)
    have hsent : (1 + (p.publish_batch topic data_array size_array n).2.messages_sent_)
        % UINT64_MOD = p.messages_sent_ + (n + 1) := by
      rw [h2, UINT64_MOD, Nat.mod_eq_of_lt (by omega)]
      omega
    rw [publish_batch_succ]
    refine ⟨?_, ?_⟩
    · simp only [publish_fst, hsent, h1]
      rw [if_pos (by omega)]
    · simp only [publish_sent, hsent]

/-- C25: on a new publisher the k-th call to publish returns k for every k with
1 <= k < 2^64, so the returned IDs are non-zero and strictly increasing; and
publish_batch over count messages returns count as long as the 64-bit counter
of sent messages stays below 2^64. -/
theorem publish_returns_call_number (address : String)
    (calls : List (String × Option (List Nat) × Nat)) (topic : String)
    (data : Option (List Nat)) (size : Nat) (hk : calls.length + 1 < 2 ^ 64) :
    ((calls.foldl (fun p c => (p.publish c.1 c.2.1 c.2.2).2) (ctor address)).publish
        topic data size).1 = calls.length + 1 ∧
    0 < ((calls.foldl (fun p c => (p.publish c.1 c.2.1 c.2.2).2) (ctor address)).publish
        topic data size).1 ∧
    (calls.foldl (fun p c => (p.publish c.1 c.2.1 c.2.2).2) (ctor address)).messages_sent_
      < ((calls.foldl (fun p c => (p.publish c.1 c.2.1 c.2.2).2) (ctor address)).publish
        topic data size).1 ∧
    (∀ (p : Publisher) (data_array : Nat → Option (List Nat)) (size_array : Nat → Nat)
        (count : Nat), p.messages_sent_ + count < 2 ^ 64 →
      (p.publish_batch topic data_array size_array count).1 = count) := by
  have hsent := sent_after_calls address calls (by omega)
  have hid : ((calls.foldl (fun p c => (p.publish c.1 c.2.1 c.2.2).2) (ctor address)).publish
      topic data size).1 = calls.length + 1 := by
    rw [publish_fst, hsent, UINT64_MOD, Nat.mod_eq_of_lt (by omega)]
    omega
  refine ⟨hid, by rw [hid]; omega, by rw [hid, hsent]; omega, ?_⟩
  intro p data_array size_array count hlt
  exact (publish_batch_no_wrap p topic data_array size_array count hlt).1

theorem publish_returns_call_number_witness :
    [("a", (none : Option (List Nat)), 0), ("b", none, 0)].length + 1 < 2 ^ 64 ∧
    (([("a", (none : Option (List Nat)), 0), ("b", none, 0)].foldl
        (fun p c => (p.publish c.1 c.2.1 c.2.2).2) (ctor "127.0.0.1:9000")).publish
        "c" none 0).1
      = [("a", (none : Option (List Nat)), 0), ("b", none, 0)].length + 1 ∧
    (ctor "127.0.0.1:9000").messages_sent_ + 5 < 2 ^ 64 ∧
    ((ctor "127.0.0.1:9000").publish_batch "c" (fun _ => none) (fun _ => 0) 5).1 = 5 :=
  ⟨by decide,
   (publish_returns_call_number "127.0.0.1:9000" [("a", none, 0), ("b", none, 0)] "c" none 0
      (by decide)).1,
   by decide,
   (publish_returns_call_number "127.0.0.1:9000" [("a", none, 0), ("b", none, 0)] "c" none 0
      (by decide)).2.2.2 (ctor "127.0.0.1:9000") (fun _ => none) (fun _ => 0) 5 (by decide)⟩

end Publisher

namespace Subscriber

/-- C26: get_position is 0 on a new subscriber, equals id after commit(id),
equals the last element of ids after commit_batch(ids) with non-empty ids, and
commit_batch of an empty list leaves the subscriber as it was. -/
theorem get_position_latest_commit (address group : String) (s : Subscriber) (id : Nat)
    (ids : List Nat) (hne : ids ≠ []) :
    (ctor address group).get_position = 0 ∧
    (s.commit id).get_position = id ∧
    (s.commit_batch ids).get_position = ids.getLast hne ∧
    s.commit_batch [] = s ∧
    (s.commit_batch []).get_position = s.get_position := by
  refine ⟨rfl, rfl, ?_, rfl, rfl⟩
  have hsplit := List.dropLast_append_getLast hne
  unfold commit_batch
  conv_lhs => rw [← hsplit]
  rw [List.foldl_append]
  rfl

theorem get_position_latest_commit_witness :
    ([3, 1, 2] : List Nat) ≠ [] ∧
    ((ctor "127.0.0.1:9000" "").commit_batch [3, 1, 2]).get_position = 2 :=
  ⟨by decide,
   (get_position_latest_commit "127.0.0.1:9000" "" (ctor "127.0.0.1:9000" "") 0 [3, 1, 2]
      (by decide)).2.2.1⟩

end Subscriber

/-! ## Wrapping arithmetic against modular arithmetic -/

namespace SPSCQueue

variable {α : Type}

theorem INDEX_MASK_eq {C : Nat} (hC : ValidCapacity C) : INDEX_MASK C = C - 1 := by
  obtain ⟨⟨k, rfl⟩, hlt⟩ := hC
  exact INDEX_MASK_two_pow hlt

theorem int_sub_emod {C h t : Nat} (ht : t < C) :
    (((h + (C - t)) % C : Nat) : Int) = ((h : Int) - (t : Int)) % (C : Int) := by
  have hcast : ((h + (C - t) : Nat) : Int) = ((h : Int) - (t : Int)) + (C : Int) := by omega
  rw [Int.ofNat_emod, hcast, Int.add_emod_self]

/-- C29: for a power-of-two Capacity and cursors head, tail < Capacity, the
wrapping expressions of the code agree with modular arithmetic over the
integers: (head + 1) & (Capacity - 1) is (head + 1) mod Capacity, (head - tail)
& (Capacity - 1) is (head - tail) mod Capacity, and (tail - head - 1) &
(Capacity - 1) is (tail - head - 1) mod Capacity, which is Capacity - 1 - size(),
also when the unsigned subtraction underflows. -/
theorem wrapping_agrees_with_mod (C : Nat) (hC : ValidCapacity C) (q : SPSCQueue α)
    (hh : q.head < C) (ht : q.tail < C) :
    INDEX_MASK C = C - 1 ∧
    wadd q.head 1 &&& INDEX_MASK C = (q.head + 1) % C ∧
    ((wsub q.head q.tail &&& INDEX_MASK C : Nat) : Int)
      = ((q.head : Int) - (q.tail : Int)) % (C : Int) ∧
    ((wsub (wsub q.tail q.head) 1 &&& INDEX_MASK C : Nat) : Int)
      = ((q.tail : Int) - (q.head : Int) - 1) % (C : Int) ∧
    wsub (wsub q.tail q.head) 1 &&& INDEX_MASK C = C - 1 - size C q := by
  have hb : InBounds C q := ⟨hh, ht⟩
  have hpos := hC.pos
  refine ⟨INDEX_MASK_eq hC, next_eq hC.1 hC.2 q.head, ?_, ?_, avail_eq hC hb⟩
  · rw [diff_eq hC.1 hC.2 ht]
    exact int_sub_emod ht
  · rw [avail_eq hC hb, size_cases hC hb]
    split
    · next hle =>
      have hmod : ((q.tail : Int) - (q.head : Int) - 1) % (C : Int)
          = (q.tail : Int) - (q.head : Int) - 1 + (C : Int) := by
        rw [← Int.add_emod_self]
        exact Int.emod_eq_of_lt (by omega) (by omega)
      rw [hmod]
      omega
    · next hlt =>
      rw [Int.emod_eq_of_lt (by omega) (by omega)]
      omega

theorem wrapping_agrees_with_mod_witness :
    ValidCapacity 16 ∧ (3 : Nat) < 16 ∧ (9 : Nat) < 16 ∧
    ((wsub 3 9 &&& INDEX_MASK 16 : Nat) : Int) = ((3 : Int) - 9) % 16 :=
  ⟨⟨⟨4, rfl⟩, by decide⟩, by decide, by decide,
   (wrapping_agrees_with_mod 16 ⟨⟨4, rfl⟩, by decide⟩
      (⟨3, 9, fun _ => 0⟩ : SPSCQueue Nat) (by decide) (by decide)).2.2.1⟩

end SPSCQueue

/-! ## What verify_checksum depends on -/

namespace Message

/-- C30: verify_checksum() returns true exactly when the stored header.crc32 is
the calculate_crc32 of the first header.size bytes currently referenced by
data, and false exactly when that checksum exists and differs; two messages with
the same crc32, size and data give the same answer whatever their id, timestamp,
topic_id, flags and padding; after data or size is changed the answer is the
comparison against the new bytes and length. -/
theorem verify_checksum_iff (m : Message) :
    (m.verify_checksum = some true ↔
      calculate_crc32 m.data m.header.size = some m.header.crc32) ∧
    (m.verify_checksum = some false ↔
      ∃ crc, calculate_crc32 m.data m.header.size = some crc ∧ crc ≠ m.header.crc32) ∧
    (∀ m2 : Message, m2.header.crc32 = m.header.crc32 → m2.header.size = m.header.size →
      m2.data = m.data → m2.verify_checksum = m.verify_checksum) ∧
    (∀ region : List Nat, m.header.size ≤ region.length →
      (m.set_data (some region)).verify_checksum
        = some (m.header.crc32 == crc32_bytes (region.take m.header.size))) ∧
    (∀ (region : List Nat) (n : Nat), m.data = some region → n ≤ region.length →
      ({ m with header := { m.header with size := n } } : Message).verify_checksum
        = some (m.header.crc32 == crc32_bytes (region.take n))) := by
  refine ⟨?_, ?_, ?_, ?_, ?_⟩
  · unfold verify_checksum
    cases hcrc : calculate_crc32 m.data m.header.size with
    | none => simp
    | some crc =>
      simp only [Option.some.injEq, beq_iff_eq]
      exact eq_comm
  · unfold verify_checksum
    cases hcrc : calculate_crc32 m.data m.header.size with
    | none => simp
    | some crc =>
      simp only [Option.some.injEq, beq_eq_false_iff_ne, exists_eq_left']
      exact ne_comm
  · intro m2 h1 h2 h3
    unfold verify_checksum
    rw [h1, h2, h3]
  · intro region hlen
    exact verify_checksum_some m hlen
  · intro region n hdata hlen
    unfold verify_checksum
    simp only [hdata]
    rw [calculate_crc32_some hlen]

end Message

namespace Message

theorem verify_checksum_iff_witness :
    (3 : Nat) ≤ [1, 2, 3, 4].length ∧
    (({ header := { MessageHeader.ctor with size := 3, crc32 := crc32_bytes [1, 2, 3] },
        data := none } : Message).set_data (some [1, 2, 3, 4])).verify_checksum
      = some (crc32_bytes [1, 2, 3] == crc32_bytes ([1, 2, 3, 4].take 3)) :=
  ⟨by decide,
   (verify_checksum_iff
      ({ header := { MessageHeader.ctor with size := 3, crc32 := crc32_bytes [1, 2, 3] },
         data := none } : Message)).2.2.2.1 [1, 2, 3, 4] (by decide)⟩

end Message

/-! ## Batch operations against repeated single calls -/

namespace SPSCQueue

variable {α : Type}

theorem push_loop_cons (C : Nat) (items : Nat → α) (n h : Nat) (st : Nat → α) :
    push_loop C items (n + 1) h st =
      push_loop C (fun j => items (j + 1)) n (wadd h 1 &&& INDEX_MASK C)
        (Function.update st h (items 0)) := by
  unfold push_loop
  rw [List.range_succ_eq_map, List.foldl_cons, List.foldl_map]

/-- Repeated `try_push` calls accept the first `min n (Capacity - 1 - size())`
elements and leave the state the copy loop of `try_push_batch` leaves. -/
theorem push_each_eq {C : Nat} (hC : ValidCapacity C) (items : Nat → α) (n : Nat) :
    ∀ (i : Nat) (q : SPSCQueue α), InBounds C q →
      push_each C items n i q =
        (i + min n (C - 1 - size C q),
         ⟨(push_loop C (fun j => items (i + j)) (min n (C - 1 - size C q)) q.head q.storage).1,
          q.tail,
          (push_loop C (fun j => items (i + j)) (min n (C - 1 - size C q)) q.head q.storage).2⟩)
    := by
  induction n with
  | zero =>
    intro i q _
    rw [Nat.zero_min]
    rfl
  | succ n ih =>
    intro i q hq
    have hlt := size_lt hC hq
    unfold push_each
    rw [try_push_eq hC]
    by_cases hfull : (q.head + 1) % C = q.tail
    · have hsz := (full_iff_size hC hq).mp hfull
      have hmin : min (n + 1) (C - 1 - size C q) = 0 := by omega
      rw [if_pos hfull, hmin]
      rfl
    · have hsz : size C q ≠ C - 1 := fun h => hfull ((full_iff_size hC hq).mpr h)
      obtain ⟨hb2, hsz2, _⟩ := push_step hC hq hfull (items i)
      have hmin : min (n + 1) (C - 1 - size C q)
          = min n (C - 1 - (size C q + 1)) + 1 := by omega
      have hfun : (fun j => items (i + (j + 1))) = (fun j => items (i + 1 + j)) := by
        funext j
        congr 1
        omega
      rw [if_neg hfull]
      simp only [if_true]
      rw [ih (i + 1) _ hb2, hsz2, hmin, push_loop_cons, next_eq hC.1 hC.2, hfun]
      simp only [Nat.add_zero]
      congr 1
      omega

/-- C27: on every reachable state, for every array items and every max_count,
try_push_batch(items, max_count) returns the same count and leaves the same
state (head, tail, every slot) as calling try_push(items[0]), try_push(items[1]),
... in order and stopping at the first call that returns false or after
max_count calls; it changes no slot that holds a live element and leaves
size() at most Capacity - 1. -/
theorem try_push_batch_eq_push_each (C : Nat) (hC : ValidCapacity C) (q : SPSCQueue α)
    (hq : Reachable C q) (items : Nat → α) (max_count : Nat) :
    try_push_batch C q items max_count = push_each C items max_count 0 q ∧
    (∀ s, s ∈ live_slots C q →
      (try_push_batch C q items max_count).2.storage s = q.storage s) ∧
    size C (try_push_batch C q items max_count).2 ≤ C - 1 := by
  have hb := hq.inBounds hC
  have hn := size_lt hC hb
  obtain ⟨h1, hb2, h3, _⟩ := try_push_batch_spec hC hb items max_count
  refine ⟨?_, ?_, ?_⟩
  · have hfun : (fun j => items (0 + j)) = items := by
      funext j
      rw [Nat.zero_add]
    rw [push_each_eq hC items max_count 0 q hb, try_push_batch_eq hC hb, hfun, Nat.zero_add]
    split
    · next h0 =>
      rw [h0]
      rfl
    · rfl
  · intro s hs
    exact (try_push_batch_slots hC hb items max_count).2 s
      (fun j hj h => free_not_live hC hb (show j < C - 1 - size C q by omega) (h ▸ hs))
  · rw [h3, h1]
    omega

theorem try_push_batch_eq_push_each_witness :
    Reachable 4 (run 4 (fun _ => 0) [Call.push 5]).queue ∧
    try_push_batch 4 (run 4 (fun _ => 0) [Call.push 5]).queue id 10
      = push_each 4 id 10 0 (run 4 (fun _ => 0) [Call.push 5]).queue :=
  ⟨⟨fun _ => 0, [Call.push 5], rfl⟩,
   (try_push_batch_eq_push_each 4 ⟨⟨2, rfl⟩, by decide⟩
      (run 4 (fun _ => 0) [Call.push 5]).queue ⟨fun _ => 0, [Call.push 5], rfl⟩ id 10).1⟩

/-- Closed form of the copy loop of `try_pop_batch`. -/
theorem pop_loop_closed {C : Nat} (hC : ValidCapacity C) (st : Nat → α) {t : Nat}
    (ht : t < C) (out : Nat → α) (n : Nat) :
    pop_loop C st n t out =
      ((t + n) % C, fun j => if j < n then st ((t + j) % C) else out j) := by
  induction n with
  | zero =>
    unfold pop_loop
    simp only [List.range_zero, List.foldl_nil, Nat.add_zero, Nat.not_lt_zero, if_false]
    rw [Nat.mod_eq_of_lt ht]
  | succ n ih =>
    rw [pop_loop_succ, ih, next_eq hC.1 hC.2]
    simp only
    rw [Nat.mod_add_mod, Nat.add_assoc]
    congr 1
    funext j
    by_cases hj : j = n
    · subst hj
      rw [Function.update_same, if_pos (by omega)]
    · rw [Function.update_noteq hj]
      by_cases hlt : j < n
      · rw [if_pos hlt, if_pos (by omega)]
      · rw [if_neg hlt, if_neg (by omega)]

/-- Closed form of repeated `try_pop` calls. -/
theorem pop_each_closed {C : Nat} (hC : ValidCapacity C) (n : Nat) :
    ∀ (i : Nat) (out : Nat → α) (q : SPSCQueue α), InBounds C q →
      pop_each C n i out q =
        (i + min n (size C q),
         fun j => if i ≤ j ∧ j < i + min n (size C q)
           then q.storage ((q.tail + (j - i)) % C) else out j,
         ⟨q.head, (q.tail + min n (size C q)) % C, q.storage⟩) := by
  induction n with
  | zero =>
    intro i out q hq
    unfold pop_each
    rw [Nat.zero_min, Nat.add_zero, Nat.add_zero, Nat.mod_eq_of_lt hq.2]
    have hfun : (fun j => if i ≤ j ∧ j < i then q.storage ((q.tail + (j - i)) % C) else out j)
        = out := by
      funext j
      rw [if_neg (by omega)]
    rw [hfun]
  | succ n ih =>
    intro i out q hq
    unfold pop_each
    rw [try_pop_eq hC]
    by_cases hemp : q.tail = q.head
    · have hsz := (empty_iff_size hC hq).mp hemp.symm
      have hmin : min (n + 1) (size C q) = 0 := by omega
      have hfun : (fun j => if i ≤ j ∧ j < i then q.storage ((q.tail + (j - i)) % C)
          else out j) = out := by
        funext j
        rw [if_neg (by omega)]
      rw [if_pos hemp, hmin]
      simp only [Nat.add_zero, Bool.false_eq_true, if_false]
      rw [Nat.mod_eq_of_lt hq.2, hfun]
    · obtain ⟨hb2, hsz2, _⟩ := pop_step hC hq hemp
      have hmin : min (n + 1) (size C q)
          = min n (size C ⟨q.head, (q.tail + 1) % C, q.storage⟩) + 1 := by omega
      rw [if_neg hemp]
      simp only [if_true]
      rw [ih (i + 1) _ _ hb2, hmin]
      simp only
      rw [slot_shift]
      refine Prod.ext (by simp only; omega) (Prod.ext ?_ rfl)
      simp only
      funext j
      by_cases hji : j = i
      · subst hji
        rw [if_neg (by omega), Function.update_same, if_pos (by omega), Nat.sub_self,
          Nat.add_zero, Nat.mod_eq_of_lt hq.2]
      · by_cases hin : i + 1 ≤ j ∧ j < i + 1 + min n (size C ⟨q.head, (q.tail + 1) % C, q.storage⟩)
        · rw [if_pos hin, if_pos (by omega), slot_shift]
          congr 2
          omega
        · rw [if_neg hin, if_neg (by omega), Function.update_noteq hji]

/-- C28: on every reachable state, for every max_count, try_pop_batch(out,
max_count) returns the same count and leaves the same state and the same array
out as calling try_pop into out[0], out[1], ... in order and stopping at the
first call that returns false or after max_count calls. -/
theorem try_pop_batch_eq_pop_each (C : Nat) (hC : ValidCapacity C) (q : SPSCQueue α)
    (hq : Reachable C q) (out : Nat → α) (max_count : Nat) :
    try_pop_batch C q out max_count = pop_each C max_count 0 out q := by
  have hb := hq.inBounds hC
  have hfun : (fun j => if 0 ≤ j ∧ j < 0 + min max_count (size C q)
      then q.storage ((q.tail + (j - 0)) % C) else out j)
      = (fun j => if j < min max_count (size C q) then q.storage ((q.tail + j) % C)
          else out j) := by
    funext j
    simp only [Nat.zero_le, true_and, Nat.zero_add, Nat.sub_zero]
  rw [pop_each_closed hC max_count 0 out q hb, try_pop_batch_eq, hfun, Nat.zero_add]
  split
  · next h0 =>
    rw [h0, Nat.add_zero, Nat.mod_eq_of_lt hb.2]
    have hout : (fun j => if j < 0 then q.storage ((q.tail + j) % C) else out j) = out := by
      funext j
      rw [if_neg (Nat.not_lt_zero j)]
    rw [hout]
  · rw [pop_loop_closed hC q.storage hb.2 out]

theorem try_pop_batch_eq_pop_each_witness :
    Reachable 4 (run 4 (fun _ => 0) [Call.push 5, Call.push 6]).queue ∧
    try_pop_batch 4 (run 4 (fun _ => 0) [Call.push 5, Call.push 6]).queue (fun _ => 0) 10
      = pop_each 4 10 0 (fun _ => 0) (run 4 (fun _ => 0) [Call.push 5, Call.push 6]).queue :=
  ⟨⟨fun _ => 0, [Call.push 5, Call.push 6], rfl⟩,
   try_pop_batch_eq_pop_each 4 ⟨⟨2, rfl⟩, by decide⟩
      (run 4 (fun _ => 0) [Call.push 5, Call.push 6]).queue
      ⟨fun _ => 0, [Call.push 5, Call.push 6], rfl⟩ (fun _ => 0) 10⟩

end SPSCQueue

/-! ## Totality of the queue operations -/

namespace SPSCQueue

variable {α : Type}

theorem Reachable.after {C : Nat} {q : SPSCQueue α} (hq : Reachable C q) (c : Call α) :
    ∀ t : Trace α, t.queue = q → Reachable C (step C t c).queue := by
  obtain ⟨mem, calls, hrun⟩ := hq
  intro t ht
  refine ⟨mem, calls ++ [c], ?_⟩
  unfold run at hrun ⊢
  rw [List.foldl_append, List.foldl_cons, List.foldl_nil]
  cases c <;> simp only [step, hrun, ht]

/-- C23: on every reachable state each of try_push, try_pop, try_push_batch and
try_pop_batch returns (the operations are total functions) and leaves a
reachable state, with both cursors and size() below Capacity; the copy loops of
the batch operations run exactly `count` iterations, the returned count, which
is at most Capacity - 1 and at most max_count however large max_count is. -/
theorem queue_operations_total (C : Nat) (hC : ValidCapacity C) (q : SPSCQueue α)
    (hq : Reachable C q) (item : α) (items out : Nat → α) (max_count : Nat) :
    (q.head < C ∧ q.tail < C ∧ size C q ≤ C - 1) ∧
    (Reachable C (try_push C q item).2 ∧
      Reachable C (try_pop C q item).2.2 ∧
      Reachable C (try_push_batch C q items max_count).2 ∧
      Reachable C (try_pop_batch C q out max_count).2.2) ∧
    ((try_push_batch C q items max_count).1 ≤ C - 1 ∧
      (try_push_batch C q items max_count).1 ≤ max_count ∧
      (try_push_batch C q items max_count).2 =
        ⟨(push_loop C items (try_push_batch C q items max_count).1 q.head q.storage).1,
         q.tail,
         (push_loop C items (try_push_batch C q items max_count).1 q.head q.storage).2⟩) ∧
    ((try_pop_batch C q out max_count).1 ≤ C - 1 ∧
      (try_pop_batch C q out max_count).1 ≤ max_count ∧
      (try_pop_batch C q out max_count).2 =
        ((pop_loop C q.storage (try_pop_batch C q out max_count).1 q.tail out).2,
         ⟨q.head, (pop_loop C q.storage (try_pop_batch C q out max_count).1 q.tail out).1,
          q.storage⟩)) := by
  have hb := hq.inBounds hC
  have hn := size_lt hC hb
  obtain ⟨p1, _, _, _⟩ := try_push_batch_spec hC hb items max_count
  obtain ⟨o1, _, _, _, _⟩ := try_pop_batch_spec hC hb out max_count
  refine ⟨⟨hb.1, hb.2, by omega⟩, ⟨?_, ?_, ?_, ?_⟩, ⟨by omega, by omega, ?_⟩,
    ⟨by omega, by omega, ?_⟩⟩
  · exact hq.after (Call.push item) ⟨q, [], []⟩ rfl
  · exact hq.after (Call.pop item) ⟨q, [], []⟩ rfl
  · exact hq.after (Call.push_batch items max_count) ⟨q, [], []⟩ rfl
  · exact hq.after (Call.pop_batch out max_count) ⟨q, [], []⟩ rfl
  · rw [try_push_batch_eq hC hb]
    split
    · next h0 =>
      simp only [h0]
      rfl
    · rfl
  · rw [try_pop_batch_eq]
    split
    · next h0 =>
      simp only [h0]
      rfl
    · rfl

theorem queue_operations_total_witness :
    Reachable 16 (run 16 (fun _ => 0) [Call.push 5, Call.push 6]).queue ∧
    (try_push_batch 16 (run 16 (fun _ => 0) [Call.push 5, Call.push 6]).queue id
      1000000).1 ≤ 16 - 1 :=
  ⟨⟨fun _ => 0, [Call.push 5, Call.push 6], rfl⟩,
   (queue_operations_total 16 ⟨⟨4, rfl⟩, by decide⟩
      (run 16 (fun _ => 0) [Call.push 5, Call.push 6]).queue
      ⟨fun _ => 0, [Call.push 5, Call.push 6], rfl⟩ 0 id id 1000000).2.2.1.1⟩

end SPSCQueue

/-! ## The wire codec -/

theorem length_le_bytes (width x : Nat) : (le_bytes width x).length = width := by
  induction width generalizing x with
  | zero => rfl
  | succ w ih =>
    unfold le_bytes
    rw [List.length_cons, ih]

theorem le_value_le_bytes (width : Nat) : ∀ x : Nat, x < 256 ^ width →
    le_value (le_bytes width x) = x := by
  induction width with
  | zero =>
    intro x hx
    rw [Nat.pow_zero] at hx
    unfold le_bytes le_value
    omega
  | succ w ih =>
    intro x hx
    have hdiv : x / 256 < 256 ^ w := by
      rw [Nat.pow_succ] at hx
      exact Nat.div_lt_of_lt_mul (by rw [Nat.mul_comm]; exact hx)
    unfold le_bytes le_value
    rw [ih _ hdiv]
    omega

theorem sizeof_message_header : MessageHeader.sizeof = 64 := by decide

theorem length_read_bytes {data : Option (List Nat)} {size : Nat} {payload : List Nat}
    (h : read_bytes data size = some payload) : payload.length = size := by
  cases size with
  | zero =>
    have h0 : read_bytes data 0 = some [] := by cases data <;> rfl
    rw [h0] at h
    rw [← Option.some.inj h]
    rfl
  | succ n =>
    cases data with
    | none => exact absurd h (by simp [read_bytes])
    | some region =>
      unfold read_bytes at h
      simp only at h
      split at h
      · next hle =>
        rw [← Option.some.inj h, List.length_take]
        omega
      · exact absurd h (by simp)

namespace MessageHeader

theorem length_object_bytes {h : MessageHeader} (hwt : h.WellTyped) {tail_padding : List Nat}
    (htail : tail_padding.length = 4) : (h.object_bytes tail_padding).length = 64 := by
  unfold object_bytes
  simp only [List.length_append, length_le_bytes, hwt.2.2.2.2.2.2, htail]

/-- Reading the members back from an object representation. -/
theorem of_bytes_append {a b c d e f p rest : List Nat} (ha : a.length = 8)
    (hb : b.length = 8) (hc : c.length = 4) (hd : d.length = 4) (he : e.length = 4)
    (hf : f.length = 4) (hp : p.length = 28) :
    of_bytes (a ++ (b ++ (c ++ (d ++ (e ++ (f ++ (p ++ rest))))))) =
      { id := le_value a, timestamp := le_value b, topic_id := le_value c,
        size := le_value d, crc32 := le_value e, flags := le_value f, padding := p } := by
  have d8 : (a ++ (b ++ (c ++ (d ++ (e ++ (f ++ (p ++ rest))))))).drop 8
      = b ++ (c ++ (d ++ (e ++ (f ++ (p ++ rest))))) := List.drop_left' ha
  have d16 : (a ++ (b ++ (c ++ (d ++ (e ++ (f ++ (p ++ rest))))))).drop 16
      = c ++ (d ++ (e ++ (f ++ (p ++ rest)))) := by
    rw [show (16 : Nat) = 8 + 8 from rfl, ← List.drop_drop, d8]
    exact List.drop_left' hb
  have d20 : (a ++ (b ++ (c ++ (d ++ (e ++ (f ++ (p ++ rest))))))).drop 20
      = d ++ (e ++ (f ++ (p ++ rest))) := by
    rw [show (20 : Nat) = 16 + 4 from rfl, ← List.drop_drop, d16]
    exact List.drop_left' hc
  have d24 : (a ++ (b ++ (c ++ (d ++ (e ++ (f ++ (p ++ rest))))))).drop 24
      = e ++ (f ++ (p ++ rest)) := by
    rw [show (24 : Nat) = 20 + 4 from rfl, ← List.drop_drop, d20]
    exact List.drop_left' hd
  have d28 : (a ++ (b ++ (c ++ (d ++ (e ++ (f ++ (p ++ rest))))))).drop 28
      = f ++ (p ++ rest) := by
    rw [show (28 : Nat) = 24 + 4 from rfl, ← List.drop_drop, d24]
    exact List.drop_left' he
  have d32 : (a ++ (b ++ (c ++ (d ++ (e ++ (f ++ (p ++ rest))))))).drop 32
      = p ++ rest := by
    rw [show (32 : Nat) = 28 + 4 from rfl, ← List.drop_drop, d28]
    exact List.drop_left' hf
  unfold of_bytes
  rw [d8, d16, d20, d24, d28, d32, List.take_left' ha, List.take_left' hb, List.take_left' hc,
    List.take_left' hd, List.take_left' he, List.take_left' hf, List.take_left' hp]

theorem of_bytes_object_bytes {h : MessageHeader} (hwt : h.WellTyped)
    (tail_padding : List Nat) : of_bytes (h.object_bytes tail_padding) = h := by
  obtain ⟨h1, h2, h3, h4, h5, h6, h7⟩ := hwt
  unfold object_bytes
  rw [of_bytes_append (length_le_bytes _ _) (length_le_bytes _ _) (length_le_bytes _ _)
    (length_le_bytes _ _) (length_le_bytes _ _) (length_le_bytes _ _) h7,
    le_value_le_bytes 8 _ (by omega), le_value_le_bytes 8 _ (by omega),
    le_value_le_bytes 4 _ (by omega), le_value_le_bytes 4 _ (by omega),
    le_value_le_bytes 4 _ (by omega), le_value_le_bytes 4 _ (by omega)]

end MessageHeader

/-- C22: for every message m whose members hold values of their types and whose
data references header.size readable payload bytes, and every buffer with
buffer_size >= 64 + m.header.size, encode_message returns n = 64 +
m.header.size, and decode_message on the first n bytes of the buffer returns
true with a header equal to m.header member for member and with data
referencing bytes identical to the payload of m. -/
theorem encode_decode_round_trip (m : Message) (hwt : m.header.WellTyped)
    (tail_padding : List Nat) (htail : tail_padding.length = 4) (payload : List Nat)
    (hread : read_bytes m.data m.header.size = some payload) (buffer : List Nat)
    (buffer_size : Nat) (hsize : 64 + m.header.size ≤ buffer_size)
    (hbuf : buffer_size ≤ buffer.length) (msg0 : Message) :
    ∃ out, encode_message m tail_padding buffer buffer_size
        = some (64 + m.header.size, out) ∧
      ∃ decoded, decode_message (out.take (64 + m.header.size)) (64 + m.header.size) msg0
          = some (true, decoded) ∧
        decoded.header = m.header ∧
        (decoded.header.id = m.header.id ∧ decoded.header.timestamp = m.header.timestamp ∧
          decoded.header.topic_id = m.header.topic_id ∧
          decoded.header.size = m.header.size ∧ decoded.header.crc32 = m.header.crc32 ∧
          decoded.header.flags = m.header.flags) ∧
        decoded.data = some payload ∧
        read_bytes decoded.data decoded.header.size = some payload := by
  have hplen := length_read_bytes hread
  have holen := MessageHeader.length_object_bytes hwt htail
  have hobj := MessageHeader.of_bytes_object_bytes hwt tail_padding
  have htake : (m.header.object_bytes tail_padding ++
      (payload ++ buffer.drop (64 + m.header.size))).take (64 + m.header.size)
      = m.header.object_bytes tail_padding ++ payload := by
    rw [← List.append_assoc]
    exact List.take_left' (by rw [List.length_append, holen, hplen])
  have hdec : decode_message (m.header.object_bytes tail_padding ++ payload)
      (64 + m.header.size) msg0
      = some (true, { header := m.header, data := some payload }) := by
    unfold decode_message
    rw [sizeof_message_header, List.take_left' holen, hobj, List.drop_left' holen,
      if_neg (by omega), if_neg (by rw [List.length_append, holen]; omega)]
    simp only
    rw [if_neg (by omega)]
  refine ⟨m.header.object_bytes tail_padding ++ (payload ++ buffer.drop (64 + m.header.size)),
    ?_, ⟨{ header := m.header, data := some payload }, ?_, rfl,
    ⟨rfl, rfl, rfl, rfl, rfl, rfl⟩, rfl, ?_⟩⟩
  · unfold encode_message
    rw [sizeof_message_header, if_neg (by omega), hread]
    simp only
    rw [if_neg (by omega)]
  · rw [htake]
    exact hdec
  · simp only
    rw [← hplen]
    cases payload with
    | nil => rfl
    | cons b rest =>
      rw [read_bytes_some (Nat.le_refl _), List.take_length]

theorem encode_decode_round_trip_witness :
    ({ MessageHeader.ctor with id := 258, size := 3, flags := 5 } : MessageHeader).WellTyped ∧
    ∃ out, encode_message
        { header := { MessageHeader.ctor with id := 258, size := 3, flags := 5 },
          data := some [7, 8, 9, 10] }
        [170, 187, 204, 221] (List.replicate 70 1) 70 = some (64 + 3, out) ∧
      ∃ decoded, decode_message (out.take (64 + 3)) (64 + 3) Message.ctor
          = some (true, decoded) ∧
        decoded.header = { MessageHeader.ctor with id := 258, size := 3, flags := 5 } ∧
        decoded.data = some [7, 8, 9] :=
  have hwt : ({ MessageHeader.ctor with id := 258, size := 3, flags := 5 }
      : MessageHeader).WellTyped := by
    unfold MessageHeader.WellTyped
    decide
  ⟨hwt,
   (encode_decode_round_trip
      { header := { MessageHeader.ctor with id := 258, size := 3, flags := 5 },
        data := some [7, 8, 9, 10] }
      hwt [170, 187, 204, 221] rfl [7, 8, 9] rfl (List.replicate 70 1) 70 (by decide)
      (by decide) Message.ctor).imp
    (fun _ h => ⟨h.1, h.2.imp (fun _ g => ⟨g.1, g.2.1, g.2.2.2.1⟩)⟩)⟩

/-! ## The constructors of Message -/

namespace Message

/-- C31: a default-constructed Message has header.id, timestamp, topic_id, size,
crc32 and flags all 0, 28 padding bytes that are all 0, a null data pointer, and
has_flag(f) false for each of the four flags. -/
theorem ctor_is_no_message :
    ctor.header.id = 0 ∧ ctor.header.timestamp = 0 ∧ ctor.header.topic_id = 0 ∧
    ctor.header.size = 0 ∧ ctor.header.crc32 = 0 ∧ ctor.header.flags = 0 ∧
    ctor.header.padding = List.replicate 28 0 ∧
    ctor.data = none ∧
    ctor.has_flag MSG_FLAG_COMPRESSED = false ∧ ctor.has_flag MSG_FLAG_ENCRYPTED = false ∧
    ctor.has_flag MSG_FLAG_PERSISTENT = false ∧ ctor.has_flag MSG_FLAG_PRIORITY = false := by
  decide

/-- C32: when the payload constructor Message(id, timestamp, topic_id, payload,
payload_size) returns, the message holds id, timestamp and topic_id as given,
flags MSG_FLAG_NONE, crc32 equal to calculate_crc32(payload, payload_size), zero
padding, and data == nullptr: the payload pointer is not retained.  It returns
whenever the payload bytes can be read. -/
theorem ctor_payload_fields (id timestamp topic_id : Nat) (payload : Option (List Nat))
    (payload_size : Nat) :
    (∀ m, ctor_payload id timestamp topic_id payload payload_size = some m →
      m.header.id = id ∧ m.header.timestamp = timestamp ∧ m.header.topic_id = topic_id ∧
      m.header.flags = MSG_FLAG_NONE ∧
      calculate_crc32 payload payload_size = some m.header.crc32 ∧
      m.header.padding = List.replicate 28 0 ∧
      m.data = none) ∧
    (∀ crc, calculate_crc32 payload payload_size = some crc →
      ∃ m, ctor_payload id timestamp topic_id payload payload_size = some m) := by
  constructor
  · intro m hm
    unfold ctor_payload at hm
    cases hcrc : calculate_crc32 payload payload_size with
    | none => rw [hcrc] at hm; exact absurd hm (by simp)
    | some crc =>
      rw [hcrc] at hm
      have hm2 := (Option.some.inj hm).symm
      subst hm2
      exact ⟨rfl, rfl, rfl, rfl, rfl, rfl, rfl⟩
  · intro crc hcrc
    unfold ctor_payload
    rw [hcrc]
    exact ⟨_, rfl⟩

theorem ctor_payload_fields_witness :
    ctor_payload 1 5 42 (some [1, 2, 3]) 3
      = some { header := { id := 1, timestamp := 5, topic_id := 42, size := 3,
                           crc32 := crc32_bytes [1, 2, 3], flags := 0,
                           padding := List.replicate 28 0 },
               data := none } ∧
    ({ header := { id := 1, timestamp := 5, topic_id := 42, size := 3,
                   crc32 := crc32_bytes [1, 2, 3], flags := 0,
                   padding := List.replicate 28 0 },
       data := none } : Message).data = none :=
  ⟨ctor_payload_some 1 5 42 (by decide),
   ((ctor_payload_fields 1 5 42 (some [1, 2, 3]) 3).1 _
      (ctor_payload_some 1 5 42 (by decide))).2.2.2.2.2.2⟩

/-! ## Frame and algebra of the flag operations -/

/-- C35: set_flag and clear_flag change nothing but header.flags (id, timestamp,
topic_id, size, crc32, padding and the data pointer stay as they are), has_flag
is a pure query, set_flag and clear_flag are idempotent, and set_flag(f)
commutes with set_flag(g) for all f and g. -/
theorem flag_operations_frame (m : Message) (f g : Nat) :
    ((m.set_flag f).header.id = m.header.id ∧
      (m.set_flag f).header.timestamp = m.header.timestamp ∧
      (m.set_flag f).header.topic_id = m.header.topic_id ∧
      (m.set_flag f).header.size = m.header.size ∧
      (m.set_flag f).header.crc32 = m.header.crc32 ∧
      (m.set_flag f).header.padding = m.header.padding ∧
      (m.set_flag f).data = m.data) ∧
    ((m.clear_flag f).header.id = m.header.id ∧
      (m.clear_flag f).header.timestamp = m.header.timestamp ∧
      (m.clear_flag f).header.topic_id = m.header.topic_id ∧
      (m.clear_flag f).header.size = m.header.size ∧
      (m.clear_flag f).header.crc32 = m.header.crc32 ∧
      (m.clear_flag f).header.padding = m.header.padding ∧
      (m.clear_flag f).data = m.data) ∧
    (m.set_flag f).set_flag f = m.set_flag f ∧
    (m.clear_flag f).clear_flag f = m.clear_flag f ∧
    (m.set_flag f).set_flag g = (m.set_flag g).set_flag f := by
  refine ⟨⟨rfl, rfl, rfl, rfl, rfl, rfl, rfl⟩, ⟨rfl, rfl, rfl, rfl, rfl, rfl, rfl⟩, ?_, ?_, ?_⟩
  · unfold set_flag
    simp only [Nat.or_assoc, Nat.or_self]
  · unfold clear_flag
    simp only [Nat.and_assoc, Nat.and_self]
  · unfold set_flag
    simp only [Nat.or_assoc, Nat.or_comm f g]

/-! ## What has_flag tests -/

theorem land_ne_zero_iff (x mask : Nat) :
    x &&& mask ≠ 0 ↔ ∃ i, x.testBit i = true ∧ mask.testBit i = true := by
  constructor
  · intro h
    obtain ⟨i, hi⟩ := Nat.ne_zero_implies_bit_true h
    rw [Nat.testBit_and, Bool.and_eq_true] at hi
    exact ⟨i, hi⟩
  · rintro ⟨i, hx, hm⟩ h0
    have : (x &&& mask).testBit i = true := by
      rw [Nat.testBit_and, hx, hm]
      rfl
    rw [h0, Nat.zero_testBit] at this
    exact absurd this (by decide)

/-- C36: has_flag(mask) is true exactly when the flags word and the mask have a
bit in common: has_flag(MSG_FLAG_NONE) is false for every message, also one
whose flags are exactly MSG_FLAG_NONE, and for a mask that combines several
flags has_flag is true as soon as one of those flags is set. -/
theorem has_flag_any_common_bit (m : Message) (mask : Nat) :
    m.has_flag MSG_FLAG_NONE = false ∧
    ({ m with header := { m.header with flags := MSG_FLAG_NONE } } : Message).has_flag
      MSG_FLAG_NONE = false ∧
    (m.has_flag mask = true ↔
      ∃ i, m.header.flags.testBit i = true ∧ mask.testBit i = true) ∧
    (∀ f, f &&& mask = f → m.has_flag f = true → m.has_flag mask = true) := by
  have hiff : m.has_flag mask = true ↔
      ∃ i, m.header.flags.testBit i = true ∧ mask.testBit i = true := by
    unfold has_flag
    rw [bne_iff_ne]
    exact land_ne_zero_iff _ _
  refine ⟨?_, ?_, hiff, ?_⟩
  · unfold has_flag MSG_FLAG_NONE
    rw [Nat.and_zero]
    rfl
  · unfold has_flag MSG_FLAG_NONE
    rw [Nat.and_zero]
    rfl
  · intro f hsub hf
    unfold has_flag at hf
    rw [bne_iff_ne] at hf
    obtain ⟨i, hx, hfi⟩ := (land_ne_zero_iff _ _).mp hf
    refine hiff.mpr ⟨i, hx, ?_⟩
    rw [← hsub, Nat.testBit_and, Bool.and_eq_true] at hfi
    exact hfi.2

theorem has_flag_any_common_bit_witness :
    MSG_FLAG_ENCRYPTED &&& (MSG_FLAG_COMPRESSED ||| MSG_FLAG_ENCRYPTED) = MSG_FLAG_ENCRYPTED ∧
    (ctor.set_flag MSG_FLAG_ENCRYPTED).has_flag MSG_FLAG_ENCRYPTED = true ∧
    (ctor.set_flag MSG_FLAG_ENCRYPTED).has_flag (MSG_FLAG_COMPRESSED ||| MSG_FLAG_ENCRYPTED)
      = true :=
  ⟨by decide, by decide,
   (has_flag_any_common_bit (ctor.set_flag MSG_FLAG_ENCRYPTED)
      (MSG_FLAG_COMPRESSED ||| MSG_FLAG_ENCRYPTED)).2.2.2 MSG_FLAG_ENCRYPTED (by decide)
      (by decide)⟩

end Message

/-! ## The bound on a batch -/

namespace MessageBatch

theorem add_of_ge {b : MessageBatch} (h : 256 ≤ b.count) (msg : Message) : b.add msg = b := by
  have hf : b.is_full = true := by
    unfold is_full MAX_BATCH_SIZE
    exact decide_eq_true h
  unfold add
  rw [hf]
  rfl

theorem count_step_le {b : MessageBatch} (hb : b.count ≤ 256) (c : Call) :
    (step b c).count ≤ 256 := by
  cases c with
  | add msg =>
    show (b.add msg).count ≤ 256
    by_cases hfull : 256 ≤ b.count
    · rw [add_of_ge hfull]
      exact hb
    · rw [add_of_lt (by omega)]
      simp only
      omega
  | clear => exact Nat.zero_le _

theorem count_foldl_le (calls : List Call) :
    ∀ b : MessageBatch, b.count ≤ 256 → (calls.foldl step b).count ≤ 256 := by
  induction calls with
  | nil => intro b hb; exact hb
  | cons c rest ih => intro b hb; exact ih _ (count_step_le hb c)

/-- C37: after every sequence of add and clear calls on a new batch, count is at
most MAX_BATCH_SIZE = 256; add on a full batch leaves the batch as it was (count
and every stored message), and add on a non-full batch stores the message at
messages[count], leaves every other element alone and increments count. -/
theorem count_bounded (calls : List Call) (msg : Message) :
    (run calls).count ≤ MAX_BATCH_SIZE ∧
    ((run calls).count = 256 → (run calls).add msg = run calls) ∧
    ((run calls).is_full = true → (run calls).add msg = run calls) ∧
    ((run calls).count < 256 →
      ((run calls).add msg).count = (run calls).count + 1 ∧
      ((run calls).add msg).messages (run calls).count = msg ∧
      (∀ j, j ≠ (run calls).count →
        ((run calls).add msg).messages j = (run calls).messages j)) := by
  have hle : (run calls).count ≤ 256 := count_foldl_le calls ctor (Nat.zero_le _)
  refine ⟨hle, ?_, ?_, ?_⟩
  · intro h
    exact add_of_ge (by omega) msg
  · intro h
    unfold is_full MAX_BATCH_SIZE at h
    exact add_of_ge (of_decide_eq_true h) msg
  · intro h
    rw [add_of_lt h]
    exact ⟨rfl, Function.update_same _ _ _, fun j hj => Function.update_noteq hj _ _⟩

theorem count_bounded_witness :
    (run [Call.add Message.ctor, Call.clear, Call.add Message.ctor]).count < 256 ∧
    ((run [Call.add Message.ctor, Call.clear, Call.add Message.ctor]).add Message.ctor).count
      = (run [Call.add Message.ctor, Call.clear, Call.add Message.ctor]).count + 1 :=
  ⟨by decide,
   ((count_bounded [Call.add Message.ctor, Call.clear, Call.add Message.ctor] Message.ctor
      ).2.2.2 (by decide)).1⟩

end MessageBatch

/-! ## Results of the codec -/

theorem getElem?_of_drop_eq {out buffer : List Nat} {k : Nat}
    (h : out.drop k = buffer.drop k) {i : Nat} (hi : k ≤ i) : out[i]? = buffer[i]? := by
  have e : i = k + (i - k) := by omega
  rw [e, ← List.getElem?_drop, ← List.getElem?_drop, h]

/-- C33: encode_message returns 0 exactly when buffer_size < 64 +
msg.header.size, and then the buffer is as it was; otherwise it returns 64 +
msg.header.size, which is at least 64, the buffer starts with the 64 header
bytes followed by the header.size payload bytes, and every byte from index 64 +
header.size on is as it was. -/
theorem encode_message_result (msg : Message) (tail_padding buffer : List Nat)
    (buffer_size : Nat) :
    (buffer_size < 64 + msg.header.size →
      encode_message msg tail_padding buffer buffer_size = some (0, buffer)) ∧
    (∀ payload, msg.header.WellTyped → tail_padding.length = 4 →
      read_bytes msg.data msg.header.size = some payload →
      64 + msg.header.size ≤ buffer_size → buffer_size ≤ buffer.length →
      ∃ out, encode_message msg tail_padding buffer buffer_size
          = some (64 + msg.header.size, out) ∧
        64 ≤ 64 + msg.header.size ∧
        out.take 64 = msg.header.object_bytes tail_padding ∧
        (out.drop 64).take msg.header.size = payload ∧
        out.drop (64 + msg.header.size) = buffer.drop (64 + msg.header.size) ∧
        out.length = buffer.length ∧
        (∀ i, 64 + msg.header.size ≤ i → out[i]? = buffer[i]?)) ∧
    (∀ n out, encode_message msg tail_padding buffer buffer_size = some (n, out) →
      (n = 0 ↔ buffer_size < 64 + msg.header.size)) := by
  refine ⟨?_, ?_, ?_⟩
  · intro hlt
    unfold encode_message
    rw [sizeof_message_header, if_pos hlt]
  · intro payload hwt htail hread hsize hbuf
    have hplen := length_read_bytes hread
    have holen := MessageHeader.length_object_bytes hwt htail
    have hdrop : (msg.header.object_bytes tail_padding ++
        (payload ++ buffer.drop (64 + msg.header.size))).drop (64 + msg.header.size)
        = buffer.drop (64 + msg.header.size) := by
      rw [← List.append_assoc]
      exact List.drop_left' (by rw [List.length_append, holen, hplen])
    refine ⟨msg.header.object_bytes tail_padding ++
      (payload ++ buffer.drop (64 + msg.header.size)), ?_, Nat.le_add_right _ _,
      List.take_left' holen, ?_, hdrop, ?_, fun i hi => getElem?_of_drop_eq hdrop hi⟩
    · unfold encode_message
      rw [sizeof_message_header, if_neg (by omega), hread]
      simp only
      rw [if_neg (by omega)]
    · rw [List.drop_left' holen]
      exact List.take_left' hplen
    · rw [List.length_append, List.length_append, List.length_drop, holen, hplen]
      omega
  · intro n out h
    unfold encode_message at h
    rw [sizeof_message_header] at h
    by_cases hlt : buffer_size < 64 + msg.header.size
    · rw [if_pos hlt] at h
      have hn : (0, buffer) = (n, out) := Option.some.inj h
      have : 0 = n := congrArg Prod.fst hn
      exact ⟨fun _ => hlt, fun _ => this.symm⟩
    · rw [if_neg hlt] at h
      cases hread : read_bytes msg.data msg.header.size with
      | none => rw [hread] at h; exact absurd h (by simp)
      | some payload =>
        rw [hread] at h
        simp only at h
        by_cases hshort : buffer.length < 64 + msg.header.size
        · rw [if_pos hshort] at h
          exact absurd h (by simp)
        · rw [if_neg hshort] at h
          have hn : (64 + msg.header.size, _) = (n, out) := Option.some.inj h
          have : 64 + msg.header.size = n := congrArg Prod.fst hn
          exact ⟨fun h0 => by omega, fun hl => absurd hl hlt⟩

theorem encode_message_result_witness :
    (70 : Nat) < 64 + ({ header := { MessageHeader.ctor with size := 10 },
                         data := none } : Message).header.size ∧
    encode_message { header := { MessageHeader.ctor with size := 10 }, data := none }
      [0, 0, 0, 0] (List.replicate 70 1) 70 = some (0, List.replicate 70 1) :=
  ⟨by decide,
   (encode_message_result { header := { MessageHeader.ctor with size := 10 }, data := none }
      [0, 0, 0, 0] (List.replicate 70 1) 70).1 (by decide)⟩

theorem size_of_bytes_take (buffer : List Nat) :
    (MessageHeader.of_bytes (buffer.take 64)).size = le_value ((buffer.drop 20).take 4) := by
  unfold MessageHeader.of_bytes
  simp only
  rw [List.drop_take, List.take_take]
  rfl

/-- C34: decode_message returns true exactly when buffer_size >= 64 and
buffer_size >= 64 + s, where s is the size member read from bytes 20..23 of the
buffer.  When it returns false, msg.data is as it was; msg is untouched when
buffer_size < 64, whereas for 64 <= buffer_size < 64 + s the header has been
overwritten with the one read from the first 64 bytes of the buffer. -/
theorem decode_message_result (buffer : List Nat) (buffer_size : Nat) (msg : Message) :
    (buffer_size < 64 → decode_message buffer buffer_size msg = some (false, msg)) ∧
    (64 ≤ buffer_size → 64 ≤ buffer.length →
      (MessageHeader.of_bytes (buffer.take 64)).size = le_value ((buffer.drop 20).take 4) ∧
      (buffer_size < 64 + le_value ((buffer.drop 20).take 4) →
        decode_message buffer buffer_size msg
          = some (false, { header := MessageHeader.of_bytes (buffer.take 64),
                           data := msg.data })) ∧
      (64 + le_value ((buffer.drop 20).take 4) ≤ buffer_size →
        decode_message buffer buffer_size msg
          = some (true, { header := MessageHeader.of_bytes (buffer.take 64),
                          data := some (buffer.drop 64) }))) ∧
    (∀ r, decode_message buffer buffer_size msg = some r →
      (r.1 = true ↔
        64 ≤ buffer_size ∧ 64 + le_value ((buffer.drop 20).take 4) ≤ buffer_size) ∧
      (r.1 = false → r.2.data = msg.data) ∧
      (buffer_size < 64 → r.2.header = msg.header)) := by
  have hs := size_of_bytes_take buffer
  have hsmall : buffer_size < 64 → decode_message buffer buffer_size msg = some (false, msg) := by
    intro hlt
    unfold decode_message
    rw [sizeof_message_header, if_pos hlt]
  have hfalse : 64 ≤ buffer_size → 64 ≤ buffer.length →
      buffer_size < 64 + le_value ((buffer.drop 20).take 4) →
      decode_message buffer buffer_size msg
        = some (false, { header := MessageHeader.of_bytes (buffer.take 64),
                         data := msg.data }) := by
    intro h1 h2 h3
    unfold decode_message
    rw [sizeof_message_header, if_neg (by omega), if_neg (by omega)]
    simp only
    rw [hs, if_pos h3]
  have htrue : 64 ≤ buffer_size → 64 ≤ buffer.length →
      64 + le_value ((buffer.drop 20).take 4) ≤ buffer_size →
      decode_message buffer buffer_size msg
        = some (true, { header := MessageHeader.of_bytes (buffer.take 64),
                        data := some (buffer.drop 64) }) := by
    intro h1 h2 h3
    unfold decode_message
    rw [sizeof_message_header, if_neg (by omega), if_neg (by omega)]
    simp only
    rw [hs, if_neg (by omega)]
  refine ⟨hsmall, fun h1 h2 => ⟨hs, hfalse h1 h2, htrue h1 h2⟩, ?_⟩
  intro r hr
  by_cases hlt : buffer_size < 64
  · rw [hsmall hlt] at hr
    have hr2 := (Option.some.inj hr).symm
    subst hr2
    exact ⟨⟨fun h => absurd (show false = true from h) (by decide),
        fun h => absurd h.1 (by omega)⟩,
      fun _ => rfl, fun _ => rfl⟩
  · by_cases hshort : buffer.length < 64
    · unfold decode_message at hr
      rw [sizeof_message_header, if_neg hlt, if_pos hshort] at hr
      exact absurd hr (by simp)
    · by_cases hsz : buffer_size < 64 + le_value ((buffer.drop 20).take 4)
      · rw [hfalse (by omega) (by omega) hsz] at hr
        have hr2 := (Option.some.inj hr).symm
        subst hr2
        exact ⟨⟨fun h => absurd (show false = true from h) (by decide),
            fun h => absurd h.2 (by omega)⟩,
          fun _ => rfl, fun h => absurd h hlt⟩
      · rw [htrue (by omega) (by omega) (by omega)] at hr
        have hr2 := (Option.some.inj hr).symm
        subst hr2
        exact ⟨⟨fun _ => ⟨by omega, by omega⟩, fun _ => rfl⟩,
          fun h => absurd (show true = false from h) (by decide), fun h => absurd h hlt⟩

theorem decode_message_result_witness :
    (10 : Nat) < 64 ∧
    decode_message (List.replicate 10 1) 10 Message.ctor = some (false, Message.ctor) :=
  ⟨by decide, (decode_message_result (List.replicate 10 1) 10 Message.ctor).1 (by decide)⟩

end nanomq
